import Mathlib

/-!
Verification development for the buniq line-deduplication tool.

The C sources are shallowly embedded as follows:

* Machine integers become natural numbers with explicit reduction modulo
  two to the sixty-fourth power (or modulo two to the thirty-second power)
  exactly where the C code relies on wraparound.
* Byte buffers and sixty-four bit word buffers become lists of natural
  numbers; a read past the end of a C buffer is modeled with a default of
  zero, and the well-formedness predicates carried by the theorems ensure
  that no in-range operation reads or writes past the end.
* The memory-mapped layout of the scaling bloom filter (one top header
  followed by the concatenated per-sub-filter regions) is flattened: each
  sub-filter record carries its own counter byte region (so its region
  offset is zero) and the persisted header fields become record fields.
  The regions of distinct sub-filters are disjoint in the C layout, so
  this flattening preserves the observable behaviour of every operation.
* The double precision computation of the derived sub-filter geometry in
  counting_bloom_init (number of hash functions and counters per function)
  is floating point; the operational model takes it as an explicit
  parameter, and all operational theorems hold for every such geometry.
  The derived-parameter formulas of bloom_init are modeled separately as
  real-valued relations.
-/

/-! ## 64-bit helpers and MurmurHash3_x64_128 (src/murmur.c) -/

/-- Two to the sixty-fourth power, the modulus of C uint64_t arithmetic. -/
def U64 : Nat := 18446744073709551616

/-- Two to the thirty-second power, the modulus of C uint32_t arithmetic. -/
def U32 : Nat := 4294967296

/-- Reduce a natural number modulo two to the sixty-fourth power. -/
def wrap64 (n : Nat) : Nat := n % U64

/-- rotl64 from murmur.c: circular left rotation of a 64-bit value. -/
def rotl64 (x : Nat) (r : Nat) : Nat := wrap64 ((x <<< r) ||| (x >>> (64 - r)))

/-- fmix64 from murmur.c: the finalization mix of MurmurHash3. -/
def fmix64 (k : Nat) : Nat :=
  let k := k ^^^ (k >>> 33)
  let k := wrap64 (k * 0xff51afd7ed558ccd)
  let k := k ^^^ (k >>> 33)
  let k := wrap64 (k * 0xc4ceb9fe1a85ec53)
  k ^^^ (k >>> 33)

/-- First MurmurHash3 block constant c1. -/
def murmurC1 : Nat := 0x87c37b91114253d5

/-- Second MurmurHash3 block constant c2. -/
def murmurC2 : Nat := 0x4cf5ad432745937f

/-- Little-endian value of a byte list, as read through a uint64 pointer
on the (little-endian) target platform. -/
def bytesLE (bs : List Nat) : Nat := bs.foldr (fun b acc => b + 256 * acc) 0

/-- One sixteen-byte body block step of MurmurHash3_x64_128. -/
def murmurBlock (k1 k2 h1 h2 : Nat) : Nat × Nat :=
  let k1 := wrap64 (k1 * murmurC1)
  let k1 := rotl64 k1 31
  let k1 := wrap64 (k1 * murmurC2)
  let h1 := h1 ^^^ k1
  let h1 := rotl64 h1 27
  let h1 := wrap64 (h1 + h2)
  let h1 := wrap64 (h1 * 5 + 0x52dce729)
  let k2 := wrap64 (k2 * murmurC2)
  let k2 := rotl64 k2 33
  let k2 := wrap64 (k2 * murmurC1)
  let h2 := h2 ^^^ k2
  let h2 := rotl64 h2 31
  let h2 := wrap64 (h2 + h1)
  let h2 := wrap64 (h2 * 5 + 0x38495ab5)
  (h1, h2)

/-- The body loop of MurmurHash3_x64_128: consume sixteen-byte blocks,
returning the mixed state and the remaining tail bytes. -/
def murmurBody : List Nat → Nat → Nat → Nat × Nat × List Nat
  | b0 :: b1 :: b2 :: b3 :: b4 :: b5 :: b6 :: b7 ::
    b8 :: b9 :: b10 :: b11 :: b12 :: b13 :: b14 :: b15 :: rest, h1, h2 =>
      let k1 := bytesLE [b0, b1, b2, b3, b4, b5, b6, b7]
      let k2 := bytesLE [b8, b9, b10, b11, b12, b13, b14, b15]
      let (h1, h2) := murmurBlock k1 k2 h1 h2
      murmurBody rest h1 h2
  | tail, h1, h2 => (h1, h2, tail)

/-- The tail switch of MurmurHash3_x64_128 applied to the residual bytes
(length strictly below sixteen).  The k2 mixing line runs only when at
least nine tail bytes exist, the k1 line only when at least one does,
matching the C fallthrough switch. -/
def murmurTail (tail : List Nat) (h1 h2 : Nat) : Nat × Nat :=
  let k2 := bytesLE (tail.drop 8)
  let h2 := if 9 ≤ tail.length then
      h2 ^^^ wrap64 (rotl64 (wrap64 (k2 * murmurC2)) 33 * murmurC1)
    else h2
  let k1 := bytesLE (tail.take 8)
  let h1 := if 1 ≤ tail.length then
      h1 ^^^ wrap64 (rotl64 (wrap64 (k1 * murmurC1)) 31 * murmurC2)
    else h1
  (h1, h2)

/-- MurmurHash3_x64_128 from murmur.c over a byte list, returning the two
64-bit output words (out[0], out[1]). -/
def murmur3_x64_128 (key : List Nat) (seed : Nat) : Nat × Nat :=
  let r := murmurBody key seed seed
  let t := murmurTail r.2.2 r.1 r.2.1
  let len := key.length
  let h1 := t.1 ^^^ len
  let h2 := t.2 ^^^ len
  let h1 := wrap64 (h1 + h2)
  let h2 := wrap64 (h2 + h1)
  let h1 := fmix64 h1
  let h2 := fmix64 h2
  let h1 := wrap64 (h1 + h2)
  let h2 := wrap64 (h2 + h1)
  (h1, h2)

/-! ## Basic bloom filter (src/bloom-filter.c) -/

/-- Hash salt used by bloom-filter.c and counting-bloom.c. -/
def bloomSalt : Nat := 0x9747b28c

/-- The 64-bit-word variant of struct bloom, as used through bloom_init_64
and bloom_check_add_64.  The qwords field of the C struct is the length of
the bf64 list. -/
structure Bloom where
  bits : Nat
  hashes : Nat
  bf64 : List Nat
  deriving Repr, DecidableEq

/-- The byte-buffer variant of struct bloom, as used through bloom_init and
bloom_check_add.  The bytes field of the C struct is the length of bf. -/
structure BloomByte where
  bits : Nat
  hashes : Nat
  bf : List Nat
  ready : Nat
  deriving Repr, DecidableEq

/-- The i-th double-hashing index: (a + i*b) mod 2^64 mod m, exactly as the
uint64 expression (a + i*b) % m evaluates in C. -/
def dhIndex (a b m i : Nat) : Nat := ((a + i * b) % U64) % m

/-- The list of k bit positions probed for a buffer, from the MurmurHash3
halves via double hashing (bloom_check_add / bloom_check_add_64). -/
def bloomIndices (bits hashes : Nat) (buffer : List Nat) : List Nat :=
  let h := murmur3_x64_128 buffer bloomSalt
  (List.range hashes).map (dhIndex h.1 h.2 bits)

/-- Test one bit of the 64-bit word buffer, mirroring the first-pass read
bloom->bf64[x >> 6] & (1ULL << (x % 64)). -/
def qtest (buf : List Nat) (x : Nat) : Bool := buf.getD (x >>> 6) 0 &&& (1 <<< (x % 64)) ≠ 0

/-- Set one bit of the 64-bit word buffer, mirroring
bloom->bf64[x >> 6] |= (1ULL << (x % 64)). -/
def qset (buf : List Nat) (x : Nat) : List Nat :=
  buf.set (x >>> 6) (buf.getD (x >>> 6) 0 ||| (1 <<< (x % 64)))

/-- bloom_check_add_64 from bloom-filter.c: first pass counts the probed
bits that are already set without modifying the buffer; if every probe hit,
the element is reported as already present (1) and the buffer is returned
untouched; otherwise the second pass sets all probed bits and the element
is reported new (0). -/
def bloom_check_add_64 (bl : Bloom) (buffer : List Nat) : Nat × Bloom :=
  let idxs := bloomIndices bl.bits bl.hashes buffer
  let hits := (idxs.filter (fun x => qtest bl.bf64 x)).length
  if hits = bl.hashes then (1, bl)
  else (0, { bl with bf64 := idxs.foldl qset bl.bf64 })

/-- test_bit_set_bit from bloom-filter.c on the byte buffer: returns 1 and
the unchanged buffer when the bit is set; otherwise returns 0, setting the
bit first when the set flag is true. -/
def test_bit_set_bit (buf : List Nat) (x : Nat) (set : Bool) : Nat × List Nat :=
  let byteOffset := x >>> 3
  let c := buf.getD byteOffset 0
  let mask := 1 <<< (x % 8)
  if c &&& mask ≠ 0 then (1, buf)
  else (0, if set then buf.set byteOffset (c ||| mask) else buf)

/-- The loop of bloom_check_add: walk the probe positions accumulating
hits; in pure check mode (add false) return 0 early at the first clear
bit; at the end report 1 exactly when every probe hit. -/
def bcaLoop (add : Bool) (hashes : Nat) : List Nat → List Nat → Nat → Nat × List Nat
  | [], buf, hits => (if hits = hashes then 1 else 0, buf)
  | x :: rest, buf, hits =>
      let r := test_bit_set_bit buf x add
      if r.1 = 1 then bcaLoop add hashes rest r.2 (hits + 1)
      else if !add then (0, buf)
      else bcaLoop add hashes rest r.2 hits

/-- bloom_check_add from bloom-filter.c (single-pass, testing while
setting when the add flag is one).  Returns minus one when the filter is
not initialized, exactly as the C code. -/
def bloom_check_add (bl : BloomByte) (buffer : List Nat) (add : Bool) : Int × BloomByte :=
  if bl.ready = 0 then (-1, bl)
  else
    let idxs := bloomIndices bl.bits bl.hashes buffer
    let r := bcaLoop add bl.hashes idxs bl.bf 0
    ((r.1 : Int), { bl with bf := r.2 })

/-- Bit x of the byte buffer of the byte-variant filter, for comparing byte
and word buffers bit for bit. -/
def bbit (buf : List Nat) (x : Nat) : Bool := (buf.getD (x >>> 3) 0).testBit (x % 8)

/-- Bit x of the word buffer of the 64-bit-variant filter. -/
def qbit (buf : List Nat) (x : Nat) : Bool := (buf.getD (x >>> 6) 0).testBit (x % 64)

/-- Well-formedness of a 64-bit-word filter: the probed modulus is positive
and the word buffer covers all bit positions below bits, as guaranteed by
bloom_init_64. -/
def BloomWF (bl : Bloom) : Prop := 0 < bl.bits ∧ bl.bits ≤ 64 * bl.bf64.length

/-- Well-formedness of a byte filter: positive modulus and the byte buffer
covers all bit positions below bits, as guaranteed by bloom_init. -/
def BloomByteWF (bl : BloomByte) : Prop := 0 < bl.bits ∧ bl.bits ≤ 8 * bl.bf.length

instance : Decidable (BloomWF bl) := by unfold BloomWF; infer_instance

instance : Decidable (BloomByteWF bl) := by unfold BloomByteWF; infer_instance

/-- SIZE_MAX on the 64-bit target platform. -/
def SIZE_MAX : Nat := U64 - 1

/-- The validation and outcome of bloom_init from bloom-filter.c, with the
success of the buffer allocation supplied as a flag.  Returns the C return
code paired with the final ready flag. -/
def bloom_init_ret (entries : Nat) (error : ℚ) (allocOk : Bool) : Nat × Nat :=
  if entries < 1000 ∨ entries > SIZE_MAX / 64 then (1, 0)
  else if error ≤ 0 ∨ error ≥ 1 then (1, 0)
  else if !allocOk then (1, 0)
  else (0, 1)

/-- The validation and outcome of enhanced_counting_bloom_init from
counting-bloom.c, which performs the same checks in the same order. -/
def enhanced_counting_bloom_init_ret (entries : Nat) (error : ℚ) (allocOk : Bool) :
    Nat × Nat :=
  if entries < 1000 ∨ entries > SIZE_MAX / 64 then (1, 0)
  else if error ≤ 0 ∨ error ≥ 1 then (1, 0)
  else if !allocOk then (1, 0)
  else (0, 1)

/-! ## Enhanced counting bloom filter (src/counting-bloom.c) -/

/-- struct enhanced_counting_bloom.  The counters field equals bits in the
C code; the counter byte array packs two 4-bit counters per byte. -/
structure ECBloom where
  counters : Nat
  hashes : Nat
  counts : List Nat
  total_insertions : Nat
  unique_insertions : Nat
  ready : Nat
  deriving Repr, DecidableEq

/-- get_counter from counting-bloom.c: even positions occupy the low
nibble of their byte, odd positions the high nibble. -/
def get_counter (counts : List Nat) (pos : Nat) : Nat :=
  let b := counts.getD (pos / 2) 0
  if pos % 2 = 0 then b &&& 0x0F else (b &&& 0xF0) >>> 4

/-- set_counter from counting-bloom.c: write a 4-bit value at a position,
preserving the other nibble of the byte. -/
def set_counter (counts : List Nat) (pos : Nat) (value : Nat) : List Nat :=
  let b := counts.getD (pos / 2) 0
  if pos % 2 = 0 then counts.set (pos / 2) ((b &&& 0xF0) ||| (value &&& 0x0F))
  else counts.set (pos / 2) ((b &&& 0x0F) ||| ((value &&& 0x0F) <<< 4))

/-- increment_counter from counting-bloom.c: saturating increment that
leaves a counter already at fifteen unchanged, reporting nothing. -/
def increment_counter (counts : List Nat) (pos : Nat) : List Nat :=
  let current := get_counter counts pos
  if current < 15 then set_counter counts pos (current + 1) else counts

/-- The probe positions of the enhanced counting bloom filter for a
buffer: double hashing reduced modulo the counter count. -/
def ecbIndices (bl : ECBloom) (buffer : List Nat) : List Nat :=
  bloomIndices bl.counters bl.hashes buffer

/-- enhanced_counting_bloom_add from counting-bloom.c: check whether every
probed counter is nonzero, then increment all probed counters and update
the insertion statistics; reports 0 for a new item, 1 for an existing one,
minus one when the filter is not ready. -/
def enhanced_counting_bloom_add (bl : ECBloom) (buffer : List Nat) : Int × ECBloom :=
  if bl.ready = 0 then (-1, bl)
  else
    let idxs := ecbIndices bl buffer
    let allPresent := idxs.all (fun x => get_counter bl.counts x ≠ 0)
    let counts := idxs.foldl increment_counter bl.counts
    if allPresent then
      (1, { bl with counts := counts, total_insertions := bl.total_insertions + 1 })
    else
      (0, { bl with
            counts := counts
            total_insertions := bl.total_insertions + 1
            unique_insertions := bl.unique_insertions + 1 })

/-- enhanced_counting_bloom_check from counting-bloom.c: present (1) when
every probed counter is nonzero; the early return of the C loop at the
first zero counter is equivalent to the conjunction over all probes. -/
def enhanced_counting_bloom_check (bl : ECBloom) (buffer : List Nat) : Int :=
  if bl.ready = 0 then -1
  else if (ecbIndices bl buffer).all (fun x => get_counter bl.counts x ≠ 0) then 1 else 0

/-- Well-formedness of an enhanced counting filter, as established by
enhanced_counting_bloom_init: positive counter modulus, the packed byte
array covers every counter, and all stored bytes are below 256. -/
def ECBloomWF (bl : ECBloom) : Prop :=
  0 < bl.counters ∧ (bl.counters + 1) / 2 ≤ bl.counts.length ∧ ∀ b ∈ bl.counts, b < 256

instance : Decidable (ECBloomWF bl) := by unfold ECBloomWF; infer_instance

/-! ## Persistent counting / scaling bloom filter (src/dablooms.c) -/

/-- Hash salt SALT_CONSTANT used by dablooms.c. -/
def dabloomsSalt : Nat := 0x97c29b3a

/-- counting_bloom_t with its persisted header fields (id, count) lifted
into the record and its slice of the shared mapped region stored as its
own byte list (hence region offset zero).  The geometry fields nfuncs and
counts_per_func are computed by counting_bloom_init in double precision;
the model stores their values. -/
structure CBloom where
  capacity : Nat
  error_rate : ℚ
  nfuncs : Nat
  counts_per_func : Nat
  size : Nat
  id : Nat
  count : Nat
  bytes : List Nat
  deriving Repr, DecidableEq

/-- Default CBloom, standing for the uninitialized pointer the C code
would dereference when the sub-filter list is empty. -/
def cbDefault : CBloom :=
  { capacity := 0, error_rate := 0, nfuncs := 0, counts_per_func := 0,
    size := 0, id := 0, count := 0, bytes := [] }

instance : Inhabited CBloom := ⟨cbDefault⟩

/-- bitmap_increment from dablooms.c: saturating increment of one packed
4-bit counter; odd indices occupy the low nibble, even indices the high
nibble.  Returns minus one and leaves the byte untouched on overflow. -/
def bitmap_increment (arr : List Nat) (index : Nat) (offset : Nat) : Int × List Nat :=
  let access := index / 2 + offset
  let n := arr.getD access 0
  if index % 2 ≠ 0 then
    if n &&& 0x0f = 0x0f then (-1, arr)
    else (0, arr.set access ((n &&& 0xf0) + ((n &&& 0x0f) + 0x01)))
  else
    if (n &&& 0xf0) >>> 4 = 0x0f then (-1, arr)
    else (0, arr.set access ((n &&& 0x0f) + ((n &&& 0xf0) + 0x10)))

/-- bitmap_decrement from dablooms.c: guarded decrement of one packed
4-bit counter; returns minus one and leaves the byte untouched on
underflow. -/
def bitmap_decrement (arr : List Nat) (index : Nat) (offset : Nat) : Int × List Nat :=
  let access := index / 2 + offset
  let n := arr.getD access 0
  if index % 2 ≠ 0 then
    if n &&& 0x0f = 0 then (-1, arr)
    else (0, arr.set access ((n &&& 0xf0) + ((n &&& 0x0f) - 0x01)))
  else
    if (n &&& 0xf0) >>> 4 = 0 then (-1, arr)
    else (0, arr.set access ((n &&& 0x0f) + ((n &&& 0xf0) - 0x10)))

/-- bitmap_check from dablooms.c: the raw masked nibble (unshifted for
even indices), used by callers only for its zero test. -/
def bitmap_check (arr : List Nat) (index : Nat) (offset : Nat) : Nat :=
  let access := index / 2 + offset
  if index % 2 ≠ 0 then arr.getD access 0 &&& 0x0f
  else arr.getD access 0 &&& 0xf0

/-- hash_func from dablooms.c: the 128-bit MurmurHash3 output is read back
through a uint32 array on the little-endian target, so h1 is the low and
h2 the high 32-bit half of the first 64-bit word; index i is
(h1 + i*h2) mod 2^32 reduced modulo counts_per_func. -/
def dabHashes (nfuncs counts_per_func : Nat) (key : List Nat) : List Nat :=
  let h := murmur3_x64_128 key dabloomsSalt
  let h1 := h.1 % U32
  let h2 := (h.1 / U32) % U32
  (List.range nfuncs).map (fun i => ((h1 + i * h2) % U32) % counts_per_func)

/-- The probe indices of counting_bloom_add / check / remove: the i-th
hash offset into the i-th bank of counts_per_func counters. -/
def dabIndices (cb : CBloom) (key : List Nat) : List Nat :=
  (List.range cb.nfuncs).map
    (fun i => (dabHashes cb.nfuncs cb.counts_per_func key).getD i 0 + i * cb.counts_per_func)

/-- counting_bloom_add from dablooms.c: increment the counter at every
probe index (overflow reports from bitmap_increment are discarded, exactly
as in the C code) and increment the persisted element count, which is a
uint32.  Always returns 0. -/
def counting_bloom_add (cb : CBloom) (key : List Nat) : Nat × CBloom :=
  let bytes := (dabIndices cb key).foldl (fun arr ix => (bitmap_increment arr ix 0).2) cb.bytes
  (0, { cb with bytes := bytes, count := (cb.count + 1) % U32 })

/-- counting_bloom_remove from dablooms.c: decrement the counter at every
probe index (underflow reports from bitmap_decrement are discarded) and
decrement the persisted element count with uint32 wraparound.  Always
returns 0. -/
def counting_bloom_remove (cb : CBloom) (key : List Nat) : Nat × CBloom :=
  let bytes := (dabIndices cb key).foldl (fun arr ix => (bitmap_decrement arr ix 0).2) cb.bytes
  (0, { cb with bytes := bytes, count := (cb.count + (U32 - 1)) % U32 })

/-- counting_bloom_check from dablooms.c: present (1) exactly when every
probed counter nibble is nonzero. -/
def counting_bloom_check (cb : CBloom) (key : List Nat) : Nat :=
  if (dabIndices cb key).all (fun ix => bitmap_check cb.bytes ix 0 ≠ 0) then 1 else 0

/-- scaling_bloom_t with its persisted header fields lifted into the
record; blooms is the sub-filter chain in creation order. -/
structure SBloom where
  capacity : Nat
  error_rate : ℚ
  max_id : Nat
  mem_seqnum : Nat
  disk_seqnum : Nat
  blooms : List CBloom
  deriving Repr, DecidableEq

/-- Replace the sub-filter at one position of the chain. -/
def modifyBloomAt (bs : List CBloom) (i : Nat) (f : CBloom → CBloom) : List CBloom :=
  bs.set i (f (bs.getD i cbDefault))

/-- The insert routing of scaling_bloom_add / scaling_bloom_remove: scan
the chain from the newest sub-filter towards the oldest and take the first
whose id lower bound is at most the record id; the C loop leaves the
oldest sub-filter selected when none matches. -/
def routeIdx (bs : List CBloom) (id : Nat) : Nat :=
  match (List.range bs.length).reverse.find? (fun i => id ≥ (bs.getD i cbDefault).id) with
  | some i => i
  | none => 0

/-- scaling_bloom_clear_seqnums from dablooms.c: when the disk sequence
number is nonzero it is cleared and the bitmap is flushed (one flush event
counted); the memory sequence number is then saved and zeroed.  Returns
the saved memory sequence number, the new state and the flush count. -/
def scaling_bloom_clear_seqnums (sb : SBloom) : Nat × SBloom × Nat :=
  if sb.disk_seqnum ≠ 0 then
    (sb.mem_seqnum, { sb with disk_seqnum := 0, mem_seqnum := 0 }, 1)
  else
    (sb.mem_seqnum, { sb with mem_seqnum := 0 }, 0)

/-- new_counting_bloom_from_scale from dablooms.c: append a sub-filter
whose error rate is the scaling filter's base error rate tightened by one
half raised to the successor of the current chain length; its geometry
comes from the double-precision derivation of counting_bloom_init, which
the model takes as the function geom; its region is fresh zeroed file
bytes, and its persisted id and count start out zero. -/
def new_counting_bloom_from_scale (geom : ℚ → Nat × Nat) (sb : SBloom) : SBloom :=
  let er := sb.error_rate * (1 / 2) ^ (sb.blooms.length + 1)
  let g := geom er
  let cb : CBloom :=
    { capacity := sb.capacity, error_rate := er, nfuncs := g.1, counts_per_func := g.2,
      size := g.1 * g.2, id := 0, count := 0,
      bytes := List.replicate ((g.1 * g.2 + 1) / 2) 0 }
  { sb with blooms := sb.blooms ++ [cb] }

/-- scaling_bloom_add from dablooms.c: route by id, clear the sequence
numbers, append a tightened sub-filter when the id exceeds every id seen
and the routing target is full (setting the new lower bound to the
successor of the maximal id seen), raise the maximal id seen if needed,
add to the selected sub-filter and restore the bumped memory sequence
number (a uint64).  Returns 1, the new state and the flush count. -/
def scaling_bloom_add (geom : ℚ → Nat × Nat) (sb : SBloom) (key : List Nat) (id : Nat) :
    Nat × SBloom × Nat :=
  let i := routeIdx sb.blooms id
  let c := scaling_bloom_clear_seqnums sb
  let seqnum := c.1
  let sb := c.2.1
  let grow := id > sb.max_id ∧ (sb.blooms.getD i cbDefault).count ≥ sb.capacity - 1
  let p :=
    if grow then
      let sb := new_counting_bloom_from_scale geom sb
      let j := sb.blooms.length - 1
      (j, { sb with blooms := (modifyBloomAt sb.blooms j
              (fun cb => { cb with count := 0, id := sb.max_id + 1 })) })
    else (i, sb)
  let i := p.1
  let sb := p.2
  let sb := if sb.max_id < id then { sb with max_id := id } else sb
  let sb := { sb with blooms := (modifyBloomAt sb.blooms i
                (fun cb => (counting_bloom_add cb key).2)) }
  (1, { sb with mem_seqnum := (seqnum + 1) % U64 }, c.2.2)

/-- scaling_bloom_check from dablooms.c: scan all sub-filters from newest
to oldest and report present (1) as soon as any sub-filter reports the key
present. -/
def scaling_bloom_check (sb : SBloom) (key : List Nat) : Nat :=
  if sb.blooms.reverse.any (fun cb => counting_bloom_check cb key ≠ 0) then 1 else 0

/-- scaling_bloom_remove from dablooms.c: scan from newest to oldest for
the first sub-filter whose id lower bound is at most the record id; when
found, clear the sequence numbers, decrement there, restore the bumped
memory sequence number and return 1; otherwise return 0 untouched. -/
def scaling_bloom_remove (sb : SBloom) (key : List Nat) (id : Nat) : Nat × SBloom × Nat :=
  match (List.range sb.blooms.length).reverse.find?
      (fun i => id ≥ (sb.blooms.getD i cbDefault).id) with
  | some i =>
      let c := scaling_bloom_clear_seqnums sb
      let sb := c.2.1
      let sb := { sb with blooms := (modifyBloomAt sb.blooms i
                    (fun cb => (counting_bloom_remove cb key).2)) }
      (1, { sb with mem_seqnum := (c.1 + 1) % U64 }, c.2.2)
  | none => (0, sb, 0)

/-- scaling_bloom_check_add from dablooms.c: first check every sub-filter,
returning 1 untouched on any hit; otherwise insert.  The C loop leaves the
cursor on the oldest sub-filter whenever any sub-filter's lower bound
matched the id (the found flag does not freeze the cursor), and on the
newest sub-filter when none matched; growth and the add then proceed as in
scaling_bloom_add. -/
def scaling_bloom_check_add (geom : ℚ → Nat × Nat) (sb : SBloom) (key : List Nat)
    (id : Nat) : Nat × SBloom × Nat :=
  if sb.blooms.reverse.any (fun cb => counting_bloom_check cb key ≠ 0) then (1, sb, 0)
  else
    let found := sb.blooms.any (fun cb => id ≥ cb.id)
    let i := if found then 0 else sb.blooms.length - 1
    let c := scaling_bloom_clear_seqnums sb
    let seqnum := c.1
    let sb := c.2.1
    let grow := id > sb.max_id ∧ (sb.blooms.getD i cbDefault).count ≥ sb.capacity - 1
    let p :=
      if grow then
        let sb := new_counting_bloom_from_scale geom sb
        let j := sb.blooms.length - 1
        (j, { sb with blooms := (modifyBloomAt sb.blooms j
                (fun cb => { cb with count := 0, id := sb.max_id + 1 })) })
      else (i, sb)
    let sb := p.2
    let sb := if sb.max_id < id then { sb with max_id := id } else sb
    let sb := { sb with blooms := (modifyBloomAt sb.blooms p.1
                  (fun cb => (counting_bloom_add cb key).2)) }
    (0, { sb with mem_seqnum := (seqnum + 1) % U64 }, c.2.2)

/-- scaling_bloom_flush from dablooms.c: flush the bitmap; only when the
disk sequence number is currently zero, set it to the memory sequence
number and flush a second time.  Returns the C return code, the new state
and the number of flush events. -/
def scaling_bloom_flush (sb : SBloom) : Nat × SBloom × Nat :=
  if sb.disk_seqnum = 0 then (0, { sb with disk_seqnum := sb.mem_seqnum }, 2)
  else (0, sb, 1)

/-- new_scaling_bloom from dablooms.c: a fresh file region is zeroed, so
every header field starts at zero; one sub-filter is created through
new_counting_bloom_from_scale with id and count zero, and the memory
sequence number is then set to one. -/
def new_scaling_bloom (geom : ℚ → Nat × Nat) (capacity : Nat) (error_rate : ℚ) : SBloom :=
  let sb : SBloom :=
    { capacity := capacity, error_rate := error_rate, max_id := 0,
      mem_seqnum := 0, disk_seqnum := 0, blooms := [] }
  let sb := new_counting_bloom_from_scale geom sb
  { sb with mem_seqnum := 1 }

/-- Well-formedness of one sub-filter region: the size is the product of
the geometry, the byte region covers every packed counter, every stored
byte is below 256, and the counter bank width is positive (in C it is the
ceiling of a positive real). -/
def CBloomWF (cb : CBloom) : Prop :=
  cb.size = cb.nfuncs * cb.counts_per_func ∧ (cb.size + 1) / 2 ≤ cb.bytes.length ∧
    (∀ b ∈ cb.bytes, b < 256) ∧ 0 < cb.counts_per_func

instance : Decidable (CBloomWF cb) := by unfold CBloomWF; infer_instance

/-- Well-formedness of a scaling filter: every sub-filter region is well
formed. -/
def SBloomWF (sb : SBloom) : Prop := ∀ cb ∈ sb.blooms, CBloomWF cb

instance : Decidable (SBloomWF sb) := by unfold SBloomWF; infer_instance

/-- A geometry derivation yielding a positive counter bank width for every
error rate, as counting_bloom_init does. -/
def GeomPos (geom : ℚ → Nat × Nat) : Prop := ∀ q : ℚ, 0 < (geom q).2

/-- The operations a client may perform on a scaling bloom filter after an
insert, for stating trace invariants. -/
inductive SOp where
  | add (key : List Nat) (id : Nat)
  | checkAdd (key : List Nat) (id : Nat)
  | remove (key : List Nat) (id : Nat)
  | flush
  deriving Repr, DecidableEq

/-- State transition of one scaling-filter operation. -/
def applySOp (geom : ℚ → Nat × Nat) (sb : SBloom) : SOp → SBloom
  | SOp.add key id => (scaling_bloom_add geom sb key id).2.1
  | SOp.checkAdd key id => (scaling_bloom_check_add geom sb key id).2.1
  | SOp.remove key id => (scaling_bloom_remove sb key id).2.1
  | SOp.flush => (scaling_bloom_flush sb).2.1

/-- State after a trace of scaling-filter operations. -/
def applySOps (geom : ℚ → Nat × Nat) (sb : SBloom) (ops : List SOp) : SBloom :=
  ops.foldl (applySOp geom) sb

/-- All probe counters of a key are nonzero in one sub-filter region: the
key will be reported present there. -/
def subAllSet (cb : CBloom) (key : List Nat) : Prop :=
  ∀ p ∈ dabIndices cb key, bitmap_check cb.bytes p 0 ≠ 0

instance : Decidable (subAllSet cb key) := by unfold subAllSet; infer_instance

/-- Growth of one sub-filter region: same geometry, same region length,
and every nonzero probe counter stays nonzero. -/
def CBMono (cb cb' : CBloom) : Prop :=
  cb'.nfuncs = cb.nfuncs ∧ cb'.counts_per_func = cb.counts_per_func ∧
    cb'.size = cb.size ∧ cb'.bytes.length = cb.bytes.length ∧
    ∀ p : Nat, bitmap_check cb.bytes p 0 ≠ 0 → bitmap_check cb'.bytes p 0 ≠ 0

/-- Growth of the sub-filter chain: the chain only gets longer and every
existing sub-filter only grows. -/
def BloomsMono (bs bs' : List CBloom) : Prop :=
  bs.length ≤ bs'.length ∧
    ∀ j < bs.length, CBMono (bs.getD j cbDefault) (bs'.getD j cbDefault)

/-! ## Parallel results buffer (parallel.c) -/

/-- The results portion of thread_pool_t: create_thread_pool sets
result_size to the queue size and result_count to zero; results collects
the stored lines in arrival order. -/
structure ResultsState where
  result_size : Nat
  result_count : Nat
  results : List (List Nat)
  deriving Repr, DecidableEq

/-- The result-storing critical section of worker_thread, executed under
the result mutex (hence atomically): only when the buffer is not full and
the line is unique (or duplicates are shown) is the line appended and the
count incremented. -/
def store_result (show_duplicates : Bool) (st : ResultsState) (line : List Nat)
    (is_duplicate : Bool) : ResultsState :=
  if st.result_count < st.result_size then
    if !is_duplicate || show_duplicates then
      { st with
        results := st.results ++ [line]
        result_count := st.result_count + 1 }
    else st
  else st

/-- The results state as initialized by create_thread_pool. -/
def pool_results_init (queue_size : Nat) : ResultsState :=
  { result_size := queue_size, result_count := 0, results := [] }

/-- The queue size process_file_parallel passes to create_thread_pool. -/
def parallel_queue_size : Nat := 1000

/-- The sequence of store attempts performed by the worker threads; the
result mutex serializes the critical sections, so every interleaving is
some sequence of atomic attempts. -/
def run_stores (show_duplicates : Bool) (st : ResultsState)
    (evs : List (List Nat × Bool)) : ResultsState :=
  evs.foldl (fun s e => store_result show_duplicates s e.1 e.2) st

/-! ## Derived parameter formulas of bloom_init (real-valued layer) -/

/-- The decimal constant 0.480453013918201 that bloom_init uses in place
of the square of the natural logarithm of two. -/
def bpeDenom : ℝ := 0.480453013918201

/-- The decimal constant 0.693147180559945 that bloom_init uses in place
of the natural logarithm of two. -/
def lnTwoCode : ℝ := 0.693147180559945

/-- bpe as computed by bloom_init (and enhanced_counting_bloom_init):
the negated quotient of the logarithm of the error rate by the decimal
constant. -/
def bloom_bpe_rel (error bpe : ℝ) : Prop := bpe = -(Real.log error / bpeDenom)

/-- bits as computed by bloom_init: the C cast of entries times bpe to
size_t truncates, which for the nonnegative values of the valid regime is
the floor. -/
def bloom_bits_rel (entries : Nat) (bpe : ℝ) (bits : ℤ) : Prop :=
  bits = ⌊(entries : ℝ) * bpe⌋

/-- hashes as computed by bloom_init: the ceiling of the decimal
approximation of the logarithm of two times bpe. -/
def bloom_hashes_rel (bpe : ℝ) (hashes : ℤ) : Prop := hashes = ⌈lnTwoCode * bpe⌉

/-- bitCount as the specification states it: the ceiling of capacity times
the exact bits-per-entry value. -/
def spec_bits_rel (capacity : Nat) (error : ℝ) (bits : ℤ) : Prop :=
  bits = ⌈(capacity : ℝ) * (-(Real.log error) / Real.log 2 ^ 2)⌉

/-! ## Claim-level predicates -/

/-- Every probed bit of the buffer is already set for this item. -/
def allBitsSet (bl : Bloom) (buffer : List Nat) : Prop :=
  ∀ x ∈ bloomIndices bl.bits bl.hashes buffer, qtest bl.bf64 x = true

instance : Decidable (allBitsSet bl buffer) := by unfold allBitsSet; infer_instance

/-- The property asserted by the idempotence claim at one filter and one
item: the first check-and-add reports new, the second reports duplicate,
and the buffer after the second call equals the buffer after the first. -/
def checkAddTwiceProp (bl : Bloom) (x : List Nat) : Prop :=
  (bloom_check_add_64 bl x).1 = 0 ∧
    (bloom_check_add_64 (bloom_check_add_64 bl x).2 x).1 = 1 ∧
    (bloom_check_add_64 (bloom_check_add_64 bl x).2 x).2.bf64 = (bloom_check_add_64 bl x).2.bf64

instance : Decidable (checkAddTwiceProp bl x) := by unfold checkAddTwiceProp; infer_instance

/-- The claim that some filter state and item distinguish the single-pass
testing-while-setting check-and-add from the two-pass one: a ready byte
filter and a word filter with the same parameters and the same bit
contents on which the verdicts differ or the final bit contents differ. -/
def singlePassDiffersClaim : Prop :=
  ∃ (blB : BloomByte) (blQ : Bloom) (x : List Nat),
    BloomByteWF blB ∧ BloomWF blQ ∧ blB.ready = 1 ∧
    blB.bits = blQ.bits ∧ blB.hashes = blQ.hashes ∧
    (∀ y < blB.bits, bbit blB.bf y = qbit blQ.bf64 y) ∧
    ((bloom_check_add blB x true).1 ≠ ((bloom_check_add_64 blQ x).1 : Int) ∨
      ∃ y < blB.bits,
        bbit (bloom_check_add blB x true).2.bf y ≠ qbit (bloom_check_add_64 blQ x).2.bf64 y)

/-! ## Generic helper lemmas -/

theorem getD_set_self {α : Type} {l : List α} {i : Nat} {v d : α} (h : i < l.length) :
    (l.set i v).getD i d = v := by
  rw [List.getD_eq_getElem _ _ (by simpa using h)]
  simp [List.getElem_set_self]

theorem getD_set_ne {α : Type} {l : List α} {i j : Nat} {v d : α} (h : i ≠ j) :
    (l.set i v).getD j d = l.getD j d := by
  by_cases hj : j < l.length
  · rw [List.getD_eq_getElem _ _ (by simpa using hj), List.getD_eq_getElem _ _ hj]
    exact List.getElem_set_ne h _
  · rw [List.getD_eq_default _ _ (by simpa using (Nat.le_of_not_lt hj)),
      List.getD_eq_default _ _ (Nat.le_of_not_lt hj)]

theorem and_shift_ne_zero (n k : Nat) : (n &&& (1 <<< k) ≠ 0) ↔ n.testBit k := by
  rw [Nat.shiftLeft_eq, one_mul, Nat.and_two_pow]
  cases h : n.testBit k <;>
    simp [h, Nat.pos_iff_ne_zero.mp (Nat.two_pow_pos k)]

theorem qtest_eq_qbit (buf : List Nat) (x : Nat) : qtest buf x = qbit buf x := by
  have h := and_shift_ne_zero (buf.getD (x >>> 6) 0) (x % 64)
  unfold qtest qbit
  by_cases hb : (buf.getD (x >>> 6) 0).testBit (x % 64) = true
  · rw [hb, decide_eq_true (h.mpr hb)]
  · have hA : ¬ (buf.getD (x >>> 6) 0 &&& 1 <<< (x % 64) ≠ 0) := fun hc => hb (h.mp hc)
    rw [decide_eq_false hA, Bool.eq_false_iff.mpr hb]

theorem bitpos_inj {x y : Nat} (h6 : x >>> 6 = y >>> 6) (hm : x % 64 = y % 64) : x = y := by
  rw [Nat.shiftRight_eq_div_pow, Nat.shiftRight_eq_div_pow] at h6
  have h64 : (2 : Nat) ^ 6 = 64 := by norm_num
  rw [h64] at h6
  omega

theorem length_qset (buf : List Nat) (x : Nat) : (qset buf x).length = buf.length := by
  simp [qset]

theorem qbit_qset (buf : List Nat) (x y : Nat) (hx : x >>> 6 < buf.length) :
    qbit (qset buf x) y = (qbit buf y || decide (x = y)) := by
  unfold qbit qset
  by_cases h : y >>> 6 = x >>> 6
  · rw [h, getD_set_self hx]
    rw [Nat.shiftLeft_eq, one_mul, Nat.testBit_lor]
    by_cases hm : x % 64 = y % 64
    · have hxy : x = y := bitpos_inj h.symm hm
      simp [hxy, Nat.testBit_two_pow_self]
    · have hxy : x ≠ y := fun e => hm (by rw [e])
      simp [Nat.testBit_two_pow_of_ne hm, hxy]
  · have hne : x >>> 6 ≠ y >>> 6 := fun e => h e.symm
    have hxy : x ≠ y := fun e => h (by rw [e])
    rw [getD_set_ne hne]
    simp [hxy]

theorem length_foldl_qset (idxs : List Nat) (buf : List Nat) :
    (idxs.foldl qset buf).length = buf.length := by
  induction idxs generalizing buf with
  | nil => rfl
  | cons a t ih => simp [List.foldl_cons, ih, length_qset]

theorem qbit_foldl_qset (idxs : List Nat) (buf : List Nat) (y : Nat)
    (h : ∀ x ∈ idxs, x >>> 6 < buf.length) :
    qbit (idxs.foldl qset buf) y = (qbit buf y || decide (y ∈ idxs)) := by
  induction idxs generalizing buf with
  | nil => simp
  | cons a t ih =>
    simp only [List.foldl_cons]
    rw [ih (qset buf a) (fun x hx => by
      rw [length_qset]; exact h x (List.mem_cons_of_mem _ hx))]
    rw [qbit_qset buf a y (h a (List.mem_cons_self a t))]
    have hd : decide (y ∈ a :: t) = (decide (y = a) || decide (y ∈ t)) := by
      simp [List.mem_cons]
    have hc : decide (a = y) = decide (y = a) := by simp [eq_comm]
    rw [hd, hc, Bool.or_assoc]

theorem bloomIndices_length (bits hashes : Nat) (buf : List Nat) :
    (bloomIndices bits hashes buf).length = hashes := by
  simp [bloomIndices]

theorem bloomIndices_lt (bits hashes : Nat) (buf : List Nat) (hb : 0 < bits) :
    ∀ x ∈ bloomIndices bits hashes buf, x < bits := by
  intro x hx
  unfold bloomIndices at hx
  simp only [List.mem_map, List.mem_range] at hx
  obtain ⟨i, _, rfl⟩ := hx
  exact Nat.mod_lt _ hb

theorem shift6_lt {x L : Nat} (h : x < 64 * L) : x >>> 6 < L := by
  rw [Nat.shiftRight_eq_div_pow]
  have h64 : (2 : Nat) ^ 6 = 64 := by norm_num
  rw [h64]
  omega

theorem ca64_all {bl : Bloom} {x : List Nat} (h : allBitsSet bl x) :
    bloom_check_add_64 bl x = (1, bl) := by
  unfold bloom_check_add_64
  have hl : ((bloomIndices bl.bits bl.hashes x).filter (fun i => qtest bl.bf64 i)).length
      = bl.hashes := by
    rw [List.filter_length_eq_length.mpr (fun a ha => h a ha), bloomIndices_length]
  simp [hl]

theorem ca64_not_all {bl : Bloom} {x : List Nat} (h : ¬ allBitsSet bl x) :
    bloom_check_add_64 bl x =
      (0, { bl with bf64 := (bloomIndices bl.bits bl.hashes x).foldl qset bl.bf64 }) := by
  unfold bloom_check_add_64
  have hl : ((bloomIndices bl.bits bl.hashes x).filter (fun i => qtest bl.bf64 i)).length
      ≠ bl.hashes := by
    intro he
    exact h (fun a ha => List.filter_length_eq_length.mp
      (by rw [he, bloomIndices_length]) a ha)
  simp [hl]

theorem ca64_params {bl : Bloom} {x : List Nat} :
    (bloom_check_add_64 bl x).2.bits = bl.bits ∧
      (bloom_check_add_64 bl x).2.hashes = bl.hashes ∧
      (bloom_check_add_64 bl x).2.bf64.length = bl.bf64.length := by
  by_cases h : allBitsSet bl x
  · rw [ca64_all h]
    exact ⟨rfl, rfl, rfl⟩
  · rw [ca64_not_all h]
    exact ⟨rfl, rfl, length_foldl_qset _ _⟩

theorem ca64_wf {bl : Bloom} {x : List Nat} (hwf : BloomWF bl) :
    BloomWF (bloom_check_add_64 bl x).2 := by
  obtain ⟨h1, h2, h3⟩ := @ca64_params bl x
  exact ⟨h1 ▸ hwf.1, by rw [h1, h3]; exact hwf.2⟩

theorem idx_shift_lt {bl : Bloom} (hwf : BloomWF bl) :
    ∀ i ∈ bloomIndices bl.bits bl.hashes x, i >>> 6 < bl.bf64.length := by
  intro i hi
  exact shift6_lt (Nat.lt_of_lt_of_le (bloomIndices_lt _ _ _ hwf.1 i hi) hwf.2)

theorem ca64_bit_mono {bl : Bloom} {x : List Nat} (hwf : BloomWF bl) (y : Nat)
    (h : qbit bl.bf64 y = true) : qbit (bloom_check_add_64 bl x).2.bf64 y = true := by
  by_cases hall : allBitsSet bl x
  · rw [ca64_all hall]
    exact h
  · rw [ca64_not_all hall]
    simp only
    rw [qbit_foldl_qset _ _ _ (idx_shift_lt hwf)]
    simp [h]

theorem ca64_inserted {bl : Bloom} {x : List Nat} (hwf : BloomWF bl) :
    ∀ i ∈ bloomIndices bl.bits bl.hashes x, qbit (bloom_check_add_64 bl x).2.bf64 i = true := by
  intro i hi
  by_cases hall : allBitsSet bl x
  · rw [ca64_all hall]
    rw [← qtest_eq_qbit]
    exact hall i hi
  · rw [ca64_not_all hall]
    simp only
    rw [qbit_foldl_qset _ _ _ (idx_shift_lt hwf)]
    simp [hi]

theorem ca64_ret_one {bl : Bloom} {x : List Nat} (h : allBitsSet bl x) :
    (bloom_check_add_64 bl x).1 = 1 := by rw [ca64_all h]

theorem bitpos8_inj {x y : Nat} (h3 : x >>> 3 = y >>> 3) (hm : x % 8 = y % 8) : x = y := by
  rw [Nat.shiftRight_eq_div_pow, Nat.shiftRight_eq_div_pow] at h3
  have h8 : (2 : Nat) ^ 3 = 8 := by norm_num
  rw [h8] at h3
  omega

theorem bbit_set (buf : List Nat) (x y : Nat) (hx : x >>> 3 < buf.length) :
    bbit (buf.set (x >>> 3) (buf.getD (x >>> 3) 0 ||| (1 <<< (x % 8)))) y
      = (bbit buf y || decide (x = y)) := by
  unfold bbit
  by_cases h : y >>> 3 = x >>> 3
  · rw [h, getD_set_self hx]
    rw [Nat.shiftLeft_eq, one_mul, Nat.testBit_lor]
    by_cases hm : x % 8 = y % 8
    · have hxy : x = y := bitpos8_inj h.symm hm
      simp [hxy, Nat.testBit_two_pow_self]
    · have hxy : x ≠ y := fun e => hm (by rw [e])
      simp [Nat.testBit_two_pow_of_ne hm, hxy]
  · have hne : x >>> 3 ≠ y >>> 3 := fun e => h e.symm
    have hxy : x ≠ y := fun e => h (by rw [e])
    rw [getD_set_ne hne]
    simp [hxy]

theorem tbsb_hit {buf : List Nat} {x : Nat} (s : Bool) (h : bbit buf x = true) :
    test_bit_set_bit buf x s = (1, buf) := by
  have hA : buf.getD (x >>> 3) 0 &&& 1 <<< (x % 8) ≠ 0 := by
    unfold bbit at h
    exact (and_shift_ne_zero _ _).mpr h
  unfold test_bit_set_bit
  rw [if_pos hA]

theorem tbsb_miss {buf : List Nat} {x : Nat} (s : Bool) (h : bbit buf x = false) :
    test_bit_set_bit buf x s =
      (0, if s then buf.set (x >>> 3) (buf.getD (x >>> 3) 0 ||| (1 <<< (x % 8))) else buf) := by
  have hb : (buf.getD (x >>> 3) 0).testBit (x % 8) = false := by unfold bbit at h; exact h
  have hA : ¬ (buf.getD (x >>> 3) 0 &&& 1 <<< (x % 8) ≠ 0) := fun hc => by
    have ht := (and_shift_ne_zero _ _).mp hc
    rw [hb] at ht
    exact Bool.noConfusion ht
  unfold test_bit_set_bit
  rw [if_neg hA]

theorem bcaLoop_ret_le (hashes : Nat) (xs : List Nat) (buf : List Nat) (hits : Nat)
    (h : (bcaLoop true hashes xs buf hits).1 = 1) : hashes ≤ hits + xs.length := by
  induction xs generalizing buf hits with
  | nil =>
    unfold bcaLoop at h
    by_cases he : hits = hashes
    · omega
    · rw [if_neg he] at h
      exact absurd h (by omega)
  | cons a t ih =>
    unfold bcaLoop at h
    by_cases hb : bbit buf a = true
    · rw [tbsb_hit true hb] at h
      dsimp only at h
      rw [if_pos rfl] at h
      have := ih _ _ h
      simp only [List.length_cons]
      omega
    · rw [tbsb_miss true (Bool.not_eq_true _ |>.mp hb)] at h
      dsimp only at h
      rw [if_neg (by omega), if_neg (by simp)] at h
      have := ih _ _ h
      simp only [List.length_cons]
      omega

theorem bcaLoop_length (hashes : Nat) (xs : List Nat) (buf : List Nat) (hits : Nat) :
    (bcaLoop true hashes xs buf hits).2.length = buf.length := by
  induction xs generalizing buf hits with
  | nil => rfl
  | cons a t ih =>
    unfold bcaLoop
    by_cases hb : bbit buf a = true
    · rw [tbsb_hit true hb]
      dsimp only
      rw [if_pos rfl]
      exact ih _ _
    · rw [tbsb_miss true (Bool.not_eq_true _ |>.mp hb)]
      dsimp only
      rw [if_neg (by omega), if_neg (by simp)]
      rw [ih _ _]
      simp

theorem bcaLoop_verdict (hashes : Nat) (xs : List Nat) (buf : List Nat) (hits : Nat)
    (hlen : hits + xs.length = hashes) :
    ((bcaLoop true hashes xs buf hits).1 = 1 ↔ ∀ x ∈ xs, bbit buf x = true) := by
  induction xs generalizing buf hits with
  | nil =>
    unfold bcaLoop
    simp only [List.length_nil, Nat.add_zero] at hlen
    simp [hlen]
  | cons a t ih =>
    unfold bcaLoop
    by_cases hb : bbit buf a = true
    · rw [tbsb_hit true hb]
      dsimp only
      rw [if_pos rfl]
      rw [ih _ (hits + 1) (by simp only [List.length_cons] at hlen; omega)]
      constructor
      · intro hall x hx
        rcases List.mem_cons.mp hx with rfl | hx
        · exact hb
        · exact hall x hx
      · intro hall x hx
        exact hall x (List.mem_cons_of_mem _ hx)
    · have hbf : bbit buf a = false := Bool.not_eq_true _ |>.mp hb
      rw [tbsb_miss true hbf]
      dsimp only
      rw [if_neg (by omega), if_neg (by simp)]
      constructor
      · intro h1
        have := bcaLoop_ret_le hashes t _ hits h1
        simp only [List.length_cons] at hlen
        omega
      · intro hall
        exact absurd (hall a (List.mem_cons_self a t)) hb

theorem bcaLoop_bits (hashes : Nat) (xs : List Nat) (buf : List Nat) (hits : Nat) (y : Nat)
    (hwf : ∀ x ∈ xs, x >>> 3 < buf.length) :
    bbit (bcaLoop true hashes xs buf hits).2 y = (bbit buf y || decide (y ∈ xs)) := by
  induction xs generalizing buf hits with
  | nil => simp [bcaLoop]
  | cons a t ih =>
    unfold bcaLoop
    have hd : decide (y ∈ a :: t) = (decide (y = a) || decide (y ∈ t)) := by
      simp [List.mem_cons]
    by_cases hb : bbit buf a = true
    · rw [tbsb_hit true hb]
      dsimp only
      rw [if_pos rfl]
      rw [ih _ _ (fun x hx => hwf x (List.mem_cons_of_mem _ hx))]
      by_cases hya : y = a
      · subst hya
        simp [hb]
      · rw [hd]
        simp [hya]
    · have hbf : bbit buf a = false := Bool.not_eq_true _ |>.mp hb
      rw [tbsb_miss true hbf]
      dsimp only
      rw [if_neg (by omega), if_neg (by simp), if_pos rfl]
      rw [ih _ _ (fun x hx => by
        rw [List.length_set]
        exact hwf x (List.mem_cons_of_mem _ hx))]
      rw [bbit_set buf a y (hwf a (List.mem_cons_self a t))]
      have hc : decide (a = y) = decide (y = a) := by simp [eq_comm]
      rw [hd, hc, Bool.or_assoc]

theorem shift3_lt {x L : Nat} (h : x < 8 * L) : x >>> 3 < L := by
  rw [Nat.shiftRight_eq_div_pow]
  have h8 : (2 : Nat) ^ 3 = 8 := by norm_num
  rw [h8]
  omega

theorem bcaLoop_ret01 (hashes : Nat) (xs : List Nat) (buf : List Nat) (hits : Nat) :
    (bcaLoop true hashes xs buf hits).1 = 1 ∨ (bcaLoop true hashes xs buf hits).1 = 0 := by
  induction xs generalizing buf hits with
  | nil =>
    unfold bcaLoop
    by_cases he : hits = hashes
    · rw [if_pos he]
      exact Or.inl rfl
    · rw [if_neg he]
      exact Or.inr rfl
  | cons a t ih =>
    unfold bcaLoop
    by_cases hb : bbit buf a = true
    · rw [tbsb_hit true hb]
      dsimp only
      rw [if_pos rfl]
      exact ih _ _
    · rw [tbsb_miss true (Bool.not_eq_true _ |>.mp hb)]
      dsimp only
      rw [if_neg (by omega), if_neg (by simp)]
      exact ih _ _

theorem modes_agree (blB : BloomByte) (blQ : Bloom) (x : List Nat)
    (hwB : BloomByteWF blB) (hwQ : BloomWF blQ) (hready : blB.ready = 1)
    (hbits : blB.bits = blQ.bits) (hh : blB.hashes = blQ.hashes)
    (hcont : ∀ y < blB.bits, bbit blB.bf y = qbit blQ.bf64 y) :
    (bloom_check_add blB x true).1 = ((bloom_check_add_64 blQ x).1 : Int) ∧
      ∀ y < blB.bits,
        bbit (bloom_check_add blB x true).2.bf y = qbit (bloom_check_add_64 blQ x).2.bf64 y := by
  have hr0 : ¬ blB.ready = 0 := by rw [hready]; omega
  have hidx : bloomIndices blB.bits blB.hashes x = bloomIndices blQ.bits blQ.hashes x := by
    rw [hbits, hh]
  have hidxlt : ∀ i ∈ bloomIndices blB.bits blB.hashes x, i < blB.bits := by
    rw [hidx, hbits]
    exact bloomIndices_lt _ _ _ hwQ.1
  have hsh3 : ∀ i ∈ bloomIndices blB.bits blB.hashes x, i >>> 3 < blB.bf.length := by
    intro i hi
    exact shift3_lt (Nat.lt_of_lt_of_le (hidxlt i hi) hwB.2)
  have hlen0 : 0 + (bloomIndices blB.bits blB.hashes x).length = blB.hashes := by
    rw [bloomIndices_length]
    omega
  have hvd := bcaLoop_verdict blB.hashes (bloomIndices blB.bits blB.hashes x) blB.bf 0 hlen0
  have hB : bloom_check_add blB x true =
      (((bcaLoop true blB.hashes (bloomIndices blB.bits blB.hashes x) blB.bf 0).1 : Int),
        { blB with bf := (bcaLoop true blB.hashes (bloomIndices blB.bits blB.hashes x) blB.bf 0).2 }) := by
    unfold bloom_check_add
    rw [if_neg hr0]
  have hallIff : (∀ i ∈ bloomIndices blB.bits blB.hashes x, bbit blB.bf i = true)
      ↔ allBitsSet blQ x := by
    unfold allBitsSet
    rw [hidx] at hidxlt ⊢
    constructor
    · intro hA i hi
      rw [qtest_eq_qbit, ← hcont i (hbits ▸ hidxlt i hi)]
      exact hA i hi
    · intro hA i hi
      rw [hcont i (hbits ▸ hidxlt i hi), ← qtest_eq_qbit]
      exact hA i hi
  by_cases hall : allBitsSet blQ x
  · have hv1 : (bcaLoop true blB.hashes (bloomIndices blB.bits blB.hashes x) blB.bf 0).1 = 1 :=
      hvd.mpr (hallIff.mpr hall)
    rw [hB, ca64_all hall]
    constructor
    · simp [hv1]
    · intro y hy
      simp only
      rw [bcaLoop_bits _ _ _ _ _ hsh3]
      by_cases hym : y ∈ bloomIndices blB.bits blB.hashes x
      · have hqy : qbit blQ.bf64 y = true := by
          rw [← qtest_eq_qbit]
          exact hall y (hidx ▸ hym)
        rw [hqy]
        simp [hym]
      · rw [hcont y hy]
        simp [hym]
  · have hv0 : (bcaLoop true blB.hashes (bloomIndices blB.bits blB.hashes x) blB.bf 0).1 = 0 := by
      rcases bcaLoop_ret01 blB.hashes (bloomIndices blB.bits blB.hashes x) blB.bf 0 with h1 | h0
      · exact absurd (hallIff.mp (hvd.mp h1)) hall
      · exact h0
    rw [hB, ca64_not_all hall]
    constructor
    · simp [hv0]
    · intro y hy
      simp only
      rw [bcaLoop_bits _ _ _ _ _ hsh3]
      rw [qbit_foldl_qset _ _ _ (idx_shift_lt hwQ)]
      rw [hcont y hy, hidx]

/-! ## Claim theorems -/

/-- Claim C2: for every initialized basic bloom filter and every input
item, check-and-add returns present and leaves every bit of the buffer
unchanged exactly when all k derived index bits were already set before
the call; otherwise it sets exactly those k index bits, changing no other
bit, and returns new. -/
theorem bloom_check_add_64_two_pass (bl : Bloom) (x : List Nat) (hwf : BloomWF bl) :
    (((bloom_check_add_64 bl x).1 = 1 ∧
        ∀ y, qbit (bloom_check_add_64 bl x).2.bf64 y = qbit bl.bf64 y)
      ↔ allBitsSet bl x) ∧
    (¬ allBitsSet bl x →
      (bloom_check_add_64 bl x).1 = 0 ∧
        (∀ y ∈ bloomIndices bl.bits bl.hashes x,
          qbit (bloom_check_add_64 bl x).2.bf64 y = true) ∧
        (∀ y, y ∉ bloomIndices bl.bits bl.hashes x →
          qbit (bloom_check_add_64 bl x).2.bf64 y = qbit bl.bf64 y)) := by
  have hnot : ¬ allBitsSet bl x →
      (bloom_check_add_64 bl x).1 = 0 ∧
        (∀ y ∈ bloomIndices bl.bits bl.hashes x,
          qbit (bloom_check_add_64 bl x).2.bf64 y = true) ∧
        (∀ y, y ∉ bloomIndices bl.bits bl.hashes x →
          qbit (bloom_check_add_64 bl x).2.bf64 y = qbit bl.bf64 y) := by
    intro hall
    rw [ca64_not_all hall]
    refine ⟨rfl, ?_, ?_⟩
    · intro y hy
      simp only
      rw [qbit_foldl_qset _ _ _ (idx_shift_lt hwf)]
      simp [hy]
    · intro y hy
      simp only
      rw [qbit_foldl_qset _ _ _ (idx_shift_lt hwf)]
      simp [hy]
  constructor
  · constructor
    · rintro ⟨h1, _⟩
      by_cases hall : allBitsSet bl x
      · exact hall
      · rw [(hnot hall).1] at h1
        exact absurd h1 (by omega)
    · intro hall
      rw [ca64_all hall]
      exact ⟨rfl, fun y => rfl⟩
  · exact hnot

/-- Witness for claim C2 at a concrete small filter and item. -/
theorem bloom_check_add_64_two_pass_witness :
    BloomWF ⟨64, 2, [0]⟩ ∧
      ((((bloom_check_add_64 ⟨64, 2, [0]⟩ [97]).1 = 1 ∧
          ∀ y, qbit (bloom_check_add_64 ⟨64, 2, [0]⟩ [97]).2.bf64 y = qbit [0] y)
        ↔ allBitsSet ⟨64, 2, [0]⟩ [97]) ∧
      (¬ allBitsSet ⟨64, 2, [0]⟩ [97] →
        (bloom_check_add_64 ⟨64, 2, [0]⟩ [97]).1 = 0 ∧
          (∀ y ∈ bloomIndices 64 2 [97],
            qbit (bloom_check_add_64 ⟨64, 2, [0]⟩ [97]).2.bf64 y = true) ∧
          (∀ y, y ∉ bloomIndices 64 2 [97] →
            qbit (bloom_check_add_64 ⟨64, 2, [0]⟩ [97]).2.bf64 y = qbit [0] y))) :=
  ⟨by decide, bloom_check_add_64_two_pass ⟨64, 2, [0]⟩ [97] (by decide)⟩

/-- Claim C5 counterexample: on a filter whose buffer is all ones (every
bit set), the first check-and-add reports duplicate, not new, so the
claimed New-then-Duplicate sequence fails while the filter is perfectly
well formed. -/
theorem checkAdd_twice_cex :
    BloomWF ⟨64, 2, [18446744073709551615]⟩ ∧
      ¬ checkAddTwiceProp ⟨64, 2, [18446744073709551615]⟩ [97] := by
  constructor
  · decide
  · decide

/-- Claim C5 amended: the first check-and-add reports new exactly when
some derived bit was clear (duplicate otherwise), the second always
reports duplicate, and the filter state after the second call is
identical to the state after the first call. -/
theorem checkAdd_twice_amended (bl : Bloom) (x : List Nat) (hwf : BloomWF bl) :
    (bloom_check_add_64 bl x).1 = (if allBitsSet bl x then 1 else 0) ∧
      (bloom_check_add_64 (bloom_check_add_64 bl x).2 x).1 = 1 ∧
      (bloom_check_add_64 (bloom_check_add_64 bl x).2 x).2 = (bloom_check_add_64 bl x).2 := by
  have hall1 : allBitsSet (bloom_check_add_64 bl x).2 x := by
    intro i hi
    obtain ⟨hb, hh, _⟩ := @ca64_params bl x
    rw [hb, hh] at hi
    rw [qtest_eq_qbit]
    exact ca64_inserted hwf i hi
  refine ⟨?_, ?_, ?_⟩
  · by_cases hall : allBitsSet bl x
    · rw [ca64_all hall, if_pos hall]
    · rw [ca64_not_all hall, if_neg hall]
  · rw [ca64_all hall1]
  · rw [ca64_all hall1]

/-- Witness for the amended claim C5 at a concrete filter and item. -/
theorem checkAdd_twice_amended_witness :
    (bloom_check_add_64 ⟨64, 2, [0]⟩ [97]).1 = (if allBitsSet ⟨64, 2, [0]⟩ [97] then 1 else 0) ∧
      (bloom_check_add_64 (bloom_check_add_64 ⟨64, 2, [0]⟩ [97]).2 [97]).1 = 1 ∧
      (bloom_check_add_64 (bloom_check_add_64 ⟨64, 2, [0]⟩ [97]).2 [97]).2
        = (bloom_check_add_64 ⟨64, 2, [0]⟩ [97]).2 :=
  checkAdd_twice_amended ⟨64, 2, [0]⟩ [97] (by decide)

/-- Claim C6 counterexample: no filter state and item distinguish the
single-pass testing-while-setting check-and-add from the two-pass one in
the single-threaded semantics: the claimed distinguishing input does not
exist. -/
theorem single_pass_differs_refuted : ¬ singlePassDiffersClaim := by
  rintro ⟨blB, blQ, x, hwB, hwQ, hr, hbits, hh, hcont, hdiff⟩
  obtain ⟨hfst, hbit⟩ := modes_agree blB blQ x hwB hwQ hr hbits hh hcont
  rcases hdiff with hv | ⟨y, hy, hne⟩
  · exact hv hfst
  · exact hne (hbit y hy)

/-- Claim C6 amended: on identical parameters and identical prior bit
contents, the single-pass check-and-add produces the same verdict and the
same final bit contents as the two-pass one; the two-pass order matters
only for the intermediate states that a concurrent observer could see. -/
theorem single_pass_two_pass_equiv (blB : BloomByte) (blQ : Bloom) (x : List Nat)
    (hwB : BloomByteWF blB) (hwQ : BloomWF blQ) (hready : blB.ready = 1)
    (hbits : blB.bits = blQ.bits) (hh : blB.hashes = blQ.hashes)
    (hcont : ∀ y < blB.bits, bbit blB.bf y = qbit blQ.bf64 y) :
    (bloom_check_add blB x true).1 = ((bloom_check_add_64 blQ x).1 : Int) ∧
      ∀ y < blB.bits,
        bbit (bloom_check_add blB x true).2.bf y = qbit (bloom_check_add_64 blQ x).2.bf64 y :=
  modes_agree blB blQ x hwB hwQ hready hbits hh hcont

/-- Witness for the amended claim C6 at concrete twin filters. -/
theorem single_pass_two_pass_equiv_witness :
    (bloom_check_add ⟨64, 2, [0, 0, 0, 0, 0, 0, 0, 0], 1⟩ [97] true).1
        = ((bloom_check_add_64 ⟨64, 2, [0]⟩ [97]).1 : Int) ∧
      ∀ y < 64,
        bbit (bloom_check_add ⟨64, 2, [0, 0, 0, 0, 0, 0, 0, 0], 1⟩ [97] true).2.bf y
          = qbit (bloom_check_add_64 ⟨64, 2, [0]⟩ [97]).2.bf64 y :=
  single_pass_two_pass_equiv ⟨64, 2, [0, 0, 0, 0, 0, 0, 0, 0], 1⟩ ⟨64, 2, [0]⟩ [97]
    (by decide) (by decide) (by decide) (by decide) (by decide) (by decide)

/-- Claim C8: filter initialization fails exactly when the capacity is
below 1000, or above SIZE_MAX divided by 64, or the error rate is outside
the open unit interval, or the buffer allocation fails; on success the
ready flag is set, and the enhanced counting filter performs the identical
validation.  The embedding is a pure function, so the outcome is
deterministic and free of other effects. -/
theorem init_validation_iff (entries : Nat) (error : ℚ) (allocOk : Bool) :
    ((bloom_init_ret entries error allocOk).1 = 0 ↔
      (1000 ≤ entries ∧ entries ≤ SIZE_MAX / 64 ∧ 0 < error ∧ error < 1 ∧ allocOk = true)) ∧
    ((bloom_init_ret entries error allocOk).1 = 1 ↔
      (entries < 1000 ∨ entries > SIZE_MAX / 64 ∨ error ≤ 0 ∨ error ≥ 1 ∨ allocOk = false)) ∧
    ((bloom_init_ret entries error allocOk).2 = 1 ↔
      (bloom_init_ret entries error allocOk).1 = 0) ∧
    enhanced_counting_bloom_init_ret entries error allocOk
      = bloom_init_ret entries error allocOk := by
  refine ⟨?_, ?_, ?_, rfl⟩
  · unfold bloom_init_ret
    split_ifs with h1 h2 h3
    · constructor
      · intro h
        simp at h
      · rintro ⟨ha, hb, _, _, _⟩
        rcases h1 with h | h
        · omega
        · omega
    · constructor
      · intro h
        simp at h
      · rintro ⟨_, _, hc, hd, _⟩
        rcases h2 with h | h
        · linarith
        · linarith
    · constructor
      · intro h
        simp at h
      · rintro ⟨_, _, _, _, he⟩
        rw [he] at h3
        simp at h3
    · rcases not_or.mp h1 with ⟨ha, hb⟩
      rcases not_or.mp h2 with ⟨hc, hd⟩
      simp only [Bool.not_eq_true] at h3
      refine ⟨fun _ => ⟨by omega, by omega, by linarith, by linarith, by simpa using h3⟩,
        fun _ => rfl⟩
  · unfold bloom_init_ret
    split_ifs with h1 h2 h3
    · refine ⟨fun _ => ?_, fun _ => rfl⟩
      rcases h1 with h | h
      · exact Or.inl h
      · exact Or.inr (Or.inl h)
    · refine ⟨fun _ => ?_, fun _ => rfl⟩
      rcases h2 with h | h
      · exact Or.inr (Or.inr (Or.inl h))
      · exact Or.inr (Or.inr (Or.inr (Or.inl h)))
    · refine ⟨fun _ => ?_, fun _ => rfl⟩
      right; right; right; right
      simpa using h3
    · rcases not_or.mp h1 with ⟨ha, hb⟩
      rcases not_or.mp h2 with ⟨hc, hd⟩
      simp only [Bool.not_eq_true] at h3
      constructor
      · intro h
        simp at h
      · intro h
        rcases h with h | h | h | h | h
        · omega
        · omega
        · linarith
        · linarith
        · rw [h] at h3
          simp at h3
  · unfold bloom_init_ret
    split_ifs <;> simp

theorem store_result_size (sd : Bool) (st : ResultsState) (line : List Nat) (dup : Bool) :
    (store_result sd st line dup).result_size = st.result_size := by
  unfold store_result
  split_ifs <;> rfl

theorem store_result_invariant (sd : Bool) (st : ResultsState) (line : List Nat) (dup : Bool)
    (h : st.result_count ≤ st.result_size ∧ st.results.length = st.result_count) :
    (store_result sd st line dup).result_count ≤ (store_result sd st line dup).result_size ∧
      (store_result sd st line dup).results.length
        = (store_result sd st line dup).result_count := by
  unfold store_result
  split_ifs with h1 h2
  · exact ⟨by simpa using h1, by simp [h.2]⟩
  · exact h
  · exact h

theorem run_stores_invariant (sd : Bool) (evs : List (List Nat × Bool)) (st : ResultsState)
    (h : st.result_count ≤ st.result_size ∧ st.results.length = st.result_count) :
    (run_stores sd st evs).result_count ≤ (run_stores sd st evs).result_size ∧
      (run_stores sd st evs).results.length = (run_stores sd st evs).result_count := by
  induction evs generalizing st with
  | nil => exact h
  | cons e t ih =>
    unfold run_stores
    simp only [List.foldl_cons]
    exact ih _ (store_result_invariant sd st e.1 e.2 h)

theorem run_stores_size (sd : Bool) (evs : List (List Nat × Bool)) (st : ResultsState) :
    (run_stores sd st evs).result_size = st.result_size := by
  induction evs generalizing st with
  | nil => rfl
  | cons e t ih =>
    unfold run_stores
    simp only [List.foldl_cons]
    rw [show List.foldl (fun s e => store_result sd s e.1 e.2) (store_result sd st e.1 e.2) t
        = run_stores sd (store_result sd st e.1 e.2) t from rfl]
    rw [ih]
    exact store_result_size _ _ _ _

/-- Claim C10: the parallel results buffer is capped at the queue size
(1000 as created by process_file_parallel).  The result mutex serializes
the store critical sections, so every interleaving of worker stores is a
sequence of atomic store attempts; over any such sequence starting from
the freshly created pool, the stored-line count never exceeds 1000 and
equals the number of lines that will be printed, and a store attempt on a
full buffer leaves the state completely unchanged, discarding the line. -/
theorem results_capacity_bound (sd : Bool) (evs : List (List Nat × Bool)) :
    (run_stores sd (pool_results_init parallel_queue_size) evs).result_count ≤ 1000 ∧
      (run_stores sd (pool_results_init parallel_queue_size) evs).results.length ≤ 1000 ∧
      (∀ (sz : Nat) (rs : List (List Nat)) (line : List Nat) (dup sd2 : Bool),
        store_result sd2 ⟨sz, sz, rs⟩ line dup = ⟨sz, sz, rs⟩) := by
  have hinit : (pool_results_init parallel_queue_size).result_count
      ≤ (pool_results_init parallel_queue_size).result_size ∧
      (pool_results_init parallel_queue_size).results.length
        = (pool_results_init parallel_queue_size).result_count := by
    constructor <;> simp [pool_results_init]
  obtain ⟨hle, hlen⟩ := run_stores_invariant sd evs _ hinit
  have hsz : (run_stores sd (pool_results_init parallel_queue_size) evs).result_size = 1000 := by
    rw [run_stores_size]
    rfl
  refine ⟨by omega, by omega, ?_⟩
  intro sz rs line dup sd2
  unfold store_result
  simp

theorem getD_lt_256 (l : List Nat) (h : ∀ b ∈ l, b < 256) (i : Nat) : l.getD i 0 < 256 := by
  by_cases hi : i < l.length
  · rw [List.getD_eq_getElem _ _ hi]
    exact h _ (List.getElem_mem hi)
  · rw [List.getD_eq_default _ _ (Nat.le_of_not_lt hi)]
    omega

set_option maxRecDepth 8192 in
theorem nib_set_get_even : ∀ b < 256, ∀ v < 16, ((b &&& 0xF0) ||| (v &&& 0x0F)) &&& 0x0F = v := by
  decide

set_option maxRecDepth 8192 in
theorem nib_set_get_odd :
    ∀ b < 256, ∀ v < 16, ((((b &&& 0x0F) ||| ((v &&& 0x0F) <<< 4)) &&& 0xF0) >>> 4) = v := by
  decide

set_option maxRecDepth 8192 in
theorem nib_set_bound_even : ∀ b < 256, ∀ v < 16, ((b &&& 0xF0) ||| (v &&& 0x0F)) < 256 := by
  decide

set_option maxRecDepth 8192 in
theorem nib_set_bound_odd : ∀ b < 256, ∀ v < 16, ((b &&& 0x0F) ||| ((v &&& 0x0F) <<< 4)) < 256 := by
  decide

set_option maxRecDepth 8192 in
theorem nib_set_other_even :
    ∀ b < 256, ∀ v < 16, (((b &&& 0xF0) ||| (v &&& 0x0F)) &&& 0xF0) >>> 4 = (b &&& 0xF0) >>> 4 := by
  decide

set_option maxRecDepth 8192 in
theorem nib_set_other_odd :
    ∀ b < 256, ∀ v < 16, ((b &&& 0x0F) ||| ((v &&& 0x0F) <<< 4)) &&& 0x0F = b &&& 0x0F := by
  decide

theorem parity_cases {p q : Nat} (hb : q / 2 = p / 2) (hne : q ≠ p) :
    (p % 2 = 0 ∧ q % 2 ≠ 0) ∨ (p % 2 ≠ 0 ∧ q % 2 = 0) := by omega

set_option maxRecDepth 2048 in
theorem nib_low_lt_16 : ∀ b < 256, b &&& 0x0F < 16 := by decide

set_option maxRecDepth 2048 in
theorem nib_high_lt_16 : ∀ b < 256, (b &&& 0xF0) >>> 4 < 16 := by decide

theorem get_counter_lt_16 (cs : List Nat) (p : Nat) (hw : ∀ b ∈ cs, b < 256) :
    get_counter cs p < 16 := by
  unfold get_counter
  have := getD_lt_256 cs hw (p / 2)
  split_ifs
  · exact nib_low_lt_16 _ this
  · exact nib_high_lt_16 _ this

theorem set_counter_length (cs : List Nat) (p v : Nat) :
    (set_counter cs p v).length = cs.length := by
  unfold set_counter
  split_ifs <;> simp

theorem set_counter_mem_lt (cs : List Nat) (p v : Nat) (hw : ∀ b ∈ cs, b < 256)
    (hv : v < 16) : ∀ b ∈ set_counter cs p v, b < 256 := by
  unfold set_counter
  have hb := getD_lt_256 cs hw (p / 2)
  split_ifs with hp <;> intro b hbm <;> rcases List.mem_or_eq_of_mem_set hbm with h | rfl
  · exact hw b h
  · exact nib_set_bound_even _ hb _ hv
  · exact hw b h
  · exact nib_set_bound_odd _ hb _ hv

theorem get_set_counter_self (cs : List Nat) (p v : Nat) (hp : p / 2 < cs.length)
    (hw : ∀ b ∈ cs, b < 256) (hv : v < 16) :
    get_counter (set_counter cs p v) p = v := by
  unfold get_counter set_counter
  have hb := getD_lt_256 cs hw (p / 2)
  split_ifs with h1
  · rw [getD_set_self hp]
    exact nib_set_get_even _ hb _ hv
  · rw [getD_set_self hp]
    exact nib_set_get_odd _ hb _ hv

theorem get_set_counter_other (cs : List Nat) (p q v : Nat) (hne : q ≠ p)
    (hw : ∀ b ∈ cs, b < 256) (hv : v < 16) :
    get_counter (set_counter cs p v) q = get_counter cs q := by
  by_cases hbyte : q / 2 = p / 2
  · have hb := getD_lt_256 cs hw (p / 2)
    rcases parity_cases hbyte hne with ⟨hp, hq⟩ | ⟨hp, hq⟩
    · unfold get_counter set_counter
      rw [if_pos hp, if_neg hq, if_neg hq, hbyte]
      by_cases hlen : p / 2 < cs.length
      · rw [getD_set_self hlen]
        exact nib_set_other_even _ hb _ hv
      · rw [List.set_eq_of_length_le (Nat.le_of_not_lt hlen)]
    · unfold get_counter set_counter
      rw [if_neg hp, if_pos hq, if_pos hq, hbyte]
      by_cases hlen : p / 2 < cs.length
      · rw [getD_set_self hlen]
        exact nib_set_other_odd _ hb _ hv
      · rw [List.set_eq_of_length_le (Nat.le_of_not_lt hlen)]
  · unfold get_counter set_counter
    split_ifs <;> rw [getD_set_ne (fun e => hbyte e.symm)]

theorem set_counter_oob (cs : List Nat) (p v : Nat) (h : cs.length ≤ p / 2) :
    set_counter cs p v = cs := by
  unfold set_counter
  split_ifs <;> exact List.set_eq_of_length_le h

theorem increment_counter_length (cs : List Nat) (p : Nat) :
    (increment_counter cs p).length = cs.length := by
  unfold increment_counter
  dsimp only
  split_ifs
  · exact set_counter_length _ _ _
  · rfl

theorem increment_counter_mem_lt (cs : List Nat) (p : Nat) (hw : ∀ b ∈ cs, b < 256) :
    ∀ b ∈ increment_counter cs p, b < 256 := by
  unfold increment_counter
  dsimp only
  split_ifs with hc
  · exact set_counter_mem_lt _ _ _ hw (by omega)
  · exact hw

theorem get_increment_other (cs : List Nat) (p q : Nat) (hne : q ≠ p)
    (hw : ∀ b ∈ cs, b < 256) :
    get_counter (increment_counter cs p) q = get_counter cs q := by
  unfold increment_counter
  dsimp only
  split_ifs with hc
  · exact get_set_counter_other _ _ _ _ hne hw (by omega)
  · rfl

theorem get_increment_self_ne_zero (cs : List Nat) (p : Nat) (hp : p / 2 < cs.length)
    (hw : ∀ b ∈ cs, b < 256) : get_counter (increment_counter cs p) p ≠ 0 := by
  unfold increment_counter
  dsimp only
  split_ifs with hc
  · rw [get_set_counter_self _ _ _ hp hw (by omega)]
    omega
  · omega

theorem get_increment_mono (cs : List Nat) (p q : Nat) (hw : ∀ b ∈ cs, b < 256)
    (h : get_counter cs q ≠ 0) : get_counter (increment_counter cs p) q ≠ 0 := by
  by_cases hqp : q = p
  · subst hqp
    by_cases hlen : q / 2 < cs.length
    · exact get_increment_self_ne_zero _ _ hlen hw
    · unfold increment_counter
      dsimp only
      split_ifs with hc
      · rw [set_counter_oob _ _ _ (Nat.le_of_not_lt hlen)]
        exact h
      · exact h
  · rw [get_increment_other _ _ _ hqp hw]
    exact h

theorem foldl_increment_length (idxs : List Nat) (cs : List Nat) :
    (idxs.foldl increment_counter cs).length = cs.length := by
  induction idxs generalizing cs with
  | nil => rfl
  | cons a t ih =>
    simp only [List.foldl_cons]
    rw [ih, increment_counter_length]

theorem foldl_increment_mem_lt (idxs : List Nat) (cs : List Nat) (hw : ∀ b ∈ cs, b < 256) :
    ∀ b ∈ idxs.foldl increment_counter cs, b < 256 := by
  induction idxs generalizing cs with
  | nil => exact hw
  | cons a t ih =>
    simp only [List.foldl_cons]
    exact ih _ (increment_counter_mem_lt _ _ hw)

theorem foldl_increment_mono (idxs : List Nat) (cs : List Nat) (q : Nat)
    (hw : ∀ b ∈ cs, b < 256) (h : get_counter cs q ≠ 0) :
    get_counter (idxs.foldl increment_counter cs) q ≠ 0 := by
  induction idxs generalizing cs with
  | nil => exact h
  | cons a t ih =>
    simp only [List.foldl_cons]
    exact ih _ (increment_counter_mem_lt _ _ hw) (get_increment_mono _ _ _ hw h)

theorem foldl_increment_sets (idxs : List Nat) (cs : List Nat)
    (hw : ∀ b ∈ cs, b < 256) (hb : ∀ p ∈ idxs, p / 2 < cs.length) :
    ∀ p ∈ idxs, get_counter (idxs.foldl increment_counter cs) p ≠ 0 := by
  induction idxs generalizing cs with
  | nil => intro p hp; cases hp
  | cons a t ih =>
    intro p hp
    simp only [List.foldl_cons]
    rcases List.mem_cons.mp hp with rfl | hpt
    · exact foldl_increment_mono t _ _ (increment_counter_mem_lt _ _ hw)
        (get_increment_self_ne_zero _ _ (hb p (List.mem_cons_self _ _)) hw)
    · exact ih (increment_counter cs a) (increment_counter_mem_lt _ _ hw)
        (fun q hq => by
          rw [increment_counter_length]
          exact hb q (List.mem_cons_of_mem _ hq)) p hpt

set_option maxRecDepth 2048 in
theorem dnib_odd_low : ∀ b < 256, ¬ b &&& 0x0f = 0x0f →
    ((b &&& 0xf0) + ((b &&& 0x0f) + 0x01)) &&& 0x0f = (b &&& 0x0f) + 1 := by decide

set_option maxRecDepth 2048 in
theorem dnib_odd_high : ∀ b < 256, ¬ b &&& 0x0f = 0x0f →
    ((b &&& 0xf0) + ((b &&& 0x0f) + 0x01)) &&& 0xf0 = b &&& 0xf0 := by decide

set_option maxRecDepth 2048 in
theorem dnib_odd_bound : ∀ b < 256, ¬ b &&& 0x0f = 0x0f →
    ((b &&& 0xf0) + ((b &&& 0x0f) + 0x01)) < 256 := by decide

set_option maxRecDepth 2048 in
theorem dnib_even_high : ∀ b < 256, ¬ (b &&& 0xf0) >>> 4 = 0x0f →
    ((b &&& 0x0f) + ((b &&& 0xf0) + 0x10)) &&& 0xf0 = (b &&& 0xf0) + 0x10 := by decide

set_option maxRecDepth 2048 in
theorem dnib_even_low : ∀ b < 256, ¬ (b &&& 0xf0) >>> 4 = 0x0f →
    ((b &&& 0x0f) + ((b &&& 0xf0) + 0x10)) &&& 0x0f = b &&& 0x0f := by decide

set_option maxRecDepth 2048 in
theorem dnib_even_bound : ∀ b < 256, ¬ (b &&& 0xf0) >>> 4 = 0x0f →
    ((b &&& 0x0f) + ((b &&& 0xf0) + 0x10)) < 256 := by decide

set_option maxRecDepth 2048 in
theorem dnib_high_sat : ∀ b < 256, (b &&& 0xf0) >>> 4 = 0x0f → b &&& 0xf0 ≠ 0 := by decide

theorem bitmap_increment_length (arr : List Nat) (ix : Nat) :
    ((bitmap_increment arr ix 0).2).length = arr.length := by
  unfold bitmap_increment
  dsimp only
  split_ifs <;> simp

theorem bitmap_increment_mem_lt (arr : List Nat) (ix : Nat) (hw : ∀ b ∈ arr, b < 256) :
    ∀ b ∈ (bitmap_increment arr ix 0).2, b < 256 := by
  unfold bitmap_increment
  have hb := getD_lt_256 arr hw (ix / 2 + 0)
  dsimp only
  split_ifs with h1 h2 h3 <;> intro b hbm
  · exact hw b hbm
  · rcases List.mem_or_eq_of_mem_set hbm with h | rfl
    · exact hw b h
    · exact dnib_odd_bound _ hb h2
  · exact hw b hbm
  · rcases List.mem_or_eq_of_mem_set hbm with h | rfl
    · exact hw b h
    · exact dnib_even_bound _ hb h3

theorem dab_parity_cases {p q : Nat} (hb : q / 2 = p / 2) (hne : q ≠ p) :
    (p % 2 ≠ 0 ∧ q % 2 = 0) ∨ (p % 2 = 0 ∧ q % 2 ≠ 0) := by omega

theorem bitmap_check_increment_other (arr : List Nat) (ix j : Nat) (hne : j ≠ ix)
    (hw : ∀ b ∈ arr, b < 256) :
    bitmap_check (bitmap_increment arr ix 0).2 j 0 = bitmap_check arr j 0 := by
  by_cases hbyte : j / 2 = ix / 2
  · have hb := getD_lt_256 arr hw (ix / 2 + 0)
    rcases dab_parity_cases hbyte hne with ⟨hp, hq⟩ | ⟨hp, hq⟩
    · unfold bitmap_increment bitmap_check
      dsimp only
      rw [if_pos hp, if_neg (by omega : ¬ j % 2 ≠ 0), if_neg (by omega : ¬ j % 2 ≠ 0)]
      split_ifs with hsat
      · rfl
      · by_cases hlen : ix / 2 + 0 < arr.length
        · rw [show j / 2 + 0 = ix / 2 + 0 by omega, getD_set_self hlen]
          exact dnib_odd_high _ hb hsat
        · rw [List.set_eq_of_length_le (Nat.le_of_not_lt hlen)]
    · unfold bitmap_increment bitmap_check
      dsimp only
      rw [if_neg (by omega : ¬ ix % 2 ≠ 0), if_pos hq, if_pos hq]
      split_ifs with hsat
      · rfl
      · by_cases hlen : ix / 2 + 0 < arr.length
        · rw [show j / 2 + 0 = ix / 2 + 0 by omega, getD_set_self hlen]
          exact dnib_even_low _ hb hsat
        · rw [List.set_eq_of_length_le (Nat.le_of_not_lt hlen)]
  · unfold bitmap_increment bitmap_check
    dsimp only
    have hdne : ix / 2 + 0 ≠ j / 2 + 0 := by omega
    split_ifs <;> first
      | rfl
      | rw [getD_set_ne hdne]

theorem bitmap_check_increment_self (arr : List Nat) (ix : Nat)
    (hlen : ix / 2 < arr.length) (hw : ∀ b ∈ arr, b < 256) :
    bitmap_check (bitmap_increment arr ix 0).2 ix 0 ≠ 0 := by
  have hb := getD_lt_256 arr hw (ix / 2 + 0)
  unfold bitmap_increment bitmap_check
  dsimp only
  by_cases hp : ix % 2 ≠ 0
  · rw [if_pos hp, if_pos hp]
    split_ifs with hsat
    · dsimp only
      omega
    · dsimp only
      rw [getD_set_self (by omega)]
      rw [dnib_odd_low _ hb hsat]
      omega
  · rw [if_neg hp, if_neg hp]
    split_ifs with hsat
    · dsimp only
      have := dnib_high_sat _ hb hsat
      omega
    · dsimp only
      rw [getD_set_self (by omega)]
      rw [dnib_even_high _ hb hsat]
      omega

theorem foldl_bitinc_length (idxs : List Nat) (arr : List Nat) :
    (idxs.foldl (fun a ix => (bitmap_increment a ix 0).2) arr).length = arr.length := by
  induction idxs generalizing arr with
  | nil => rfl
  | cons a t ih =>
    simp only [List.foldl_cons]
    rw [ih, bitmap_increment_length]

theorem foldl_bitinc_mem_lt (idxs : List Nat) (arr : List Nat) (hw : ∀ b ∈ arr, b < 256) :
    ∀ b ∈ idxs.foldl (fun a ix => (bitmap_increment a ix 0).2) arr, b < 256 := by
  induction idxs generalizing arr with
  | nil => exact hw
  | cons a t ih =>
    simp only [List.foldl_cons]
    exact ih _ (bitmap_increment_mem_lt _ _ hw)

theorem bitmap_check_increment_mono (arr : List Nat) (ix j : Nat)
    (hw : ∀ b ∈ arr, b < 256) (h : bitmap_check arr j 0 ≠ 0) :
    bitmap_check (bitmap_increment arr ix 0).2 j 0 ≠ 0 := by
  by_cases hji : j = ix
  · subst hji
    by_cases hlen : j / 2 < arr.length
    · exact bitmap_check_increment_self _ _ hlen hw
    · unfold bitmap_increment
      dsimp only
      split_ifs <;>
        first
          | exact h
          | (rw [List.set_eq_of_length_le (by omega)]; exact h)
  · rw [bitmap_check_increment_other _ _ _ hji hw]
    exact h

theorem foldl_bitinc_mono (idxs : List Nat) (arr : List Nat) (j : Nat)
    (hw : ∀ b ∈ arr, b < 256) (h : bitmap_check arr j 0 ≠ 0) :
    bitmap_check (idxs.foldl (fun a ix => (bitmap_increment a ix 0).2) arr) j 0 ≠ 0 := by
  induction idxs generalizing arr with
  | nil => exact h
  | cons a t ih =>
    simp only [List.foldl_cons]
    exact ih _ (bitmap_increment_mem_lt _ _ hw) (bitmap_check_increment_mono _ _ _ hw h)

theorem foldl_bitinc_sets (idxs : List Nat) (arr : List Nat)
    (hw : ∀ b ∈ arr, b < 256) (hb : ∀ p ∈ idxs, p / 2 < arr.length) :
    ∀ p ∈ idxs,
      bitmap_check (idxs.foldl (fun a ix => (bitmap_increment a ix 0).2) arr) p 0 ≠ 0 := by
  induction idxs generalizing arr with
  | nil => intro p hp; cases hp
  | cons a t ih =>
    intro p hp
    simp only [List.foldl_cons]
    rcases List.mem_cons.mp hp with rfl | hpt
    · exact foldl_bitinc_mono t _ _ (bitmap_increment_mem_lt _ _ hw)
        (bitmap_check_increment_self _ _ (hb p (List.mem_cons_self _ _)) hw)
    · exact ih _ (bitmap_increment_mem_lt _ _ hw)
        (fun q hq => by
          rw [bitmap_increment_length]
          exact hb q (List.mem_cons_of_mem _ hq)) p hpt

theorem dabHashes_getD (nf cpf : Nat) (key : List Nat) (i : Nat) (hi : i < nf) :
    (dabHashes nf cpf key).getD i 0 =
      (((murmur3_x64_128 key dabloomsSalt).1 % U32
          + i * ((murmur3_x64_128 key dabloomsSalt).1 / U32 % U32)) % U32) % cpf := by
  unfold dabHashes
  dsimp only
  rw [List.getD_eq_getElem _ _ (by simpa using hi)]
  simp

theorem dabIndices_lt (cb : CBloom) (key : List Nat) (hcpf : 0 < cb.counts_per_func)
    (hsz : cb.size = cb.nfuncs * cb.counts_per_func) :
    ∀ p ∈ dabIndices cb key, p < cb.size := by
  intro p hp
  unfold dabIndices at hp
  simp only [List.mem_map, List.mem_range] at hp
  obtain ⟨i, hi, rfl⟩ := hp
  rw [dabHashes_getD _ _ _ _ hi]
  have hmod := Nat.mod_lt (((murmur3_x64_128 key dabloomsSalt).1 % U32
      + i * ((murmur3_x64_128 key dabloomsSalt).1 / U32 % U32)) % U32) hcpf
  have : i * cb.counts_per_func + cb.counts_per_func ≤ cb.nfuncs * cb.counts_per_func := by
    have := Nat.succ_le_of_lt hi
    calc i * cb.counts_per_func + cb.counts_per_func = (i + 1) * cb.counts_per_func := by ring
    _ ≤ cb.nfuncs * cb.counts_per_func := Nat.mul_le_mul_right _ this
  omega

theorem dabIndices_congr (cb cb' : CBloom) (key : List Nat) (h1 : cb'.nfuncs = cb.nfuncs)
    (h2 : cb'.counts_per_func = cb.counts_per_func) :
    dabIndices cb' key = dabIndices cb key := by
  unfold dabIndices
  rw [h1, h2]

theorem cba_proj (cb : CBloom) (key : List Nat) :
    ((counting_bloom_add cb key).2).capacity = cb.capacity ∧
      ((counting_bloom_add cb key).2).error_rate = cb.error_rate ∧
      ((counting_bloom_add cb key).2).nfuncs = cb.nfuncs ∧
      ((counting_bloom_add cb key).2).counts_per_func = cb.counts_per_func ∧
      ((counting_bloom_add cb key).2).size = cb.size ∧
      ((counting_bloom_add cb key).2).id = cb.id ∧
      ((counting_bloom_add cb key).2).count = (cb.count + 1) % U32 ∧
      ((counting_bloom_add cb key).2).bytes
        = (dabIndices cb key).foldl (fun a ix => (bitmap_increment a ix 0).2) cb.bytes :=
  ⟨rfl, rfl, rfl, rfl, rfl, rfl, rfl, rfl⟩

theorem cba_wf {cb : CBloom} (key : List Nat) (hwf : CBloomWF cb) :
    CBloomWF (counting_bloom_add cb key).2 := by
  obtain ⟨hsz, hlen, hmem, hcpf⟩ := hwf
  refine ⟨hsz, ?_, ?_, hcpf⟩
  · show ((counting_bloom_add cb key).2.size + 1) / 2 ≤ _
    rw [(cba_proj cb key).2.2.2.2.1, (cba_proj cb key).2.2.2.2.2.2.2]
    rw [foldl_bitinc_length]
    exact hlen
  · rw [(cba_proj cb key).2.2.2.2.2.2.2]
    exact foldl_bitinc_mem_lt _ _ hmem

theorem cba_sets {cb : CBloom} (key : List Nat) (hwf : CBloomWF cb) :
    subAllSet (counting_bloom_add cb key).2 key := by
  obtain ⟨hsz, hlen, hmem, hcpf⟩ := hwf
  intro p hp
  rw [dabIndices_congr cb (counting_bloom_add cb key).2 key
    (cba_proj cb key).2.2.1 (cba_proj cb key).2.2.2.1] at hp
  rw [(cba_proj cb key).2.2.2.2.2.2.2]
  exact foldl_bitinc_sets _ _ hmem
    (fun q hq => by
      have := dabIndices_lt cb key hcpf hsz q hq
      omega) p hp

theorem cba_mono {cb : CBloom} (key : List Nat) (hwf : CBloomWF cb) :
    CBMono cb (counting_bloom_add cb key).2 := by
  obtain ⟨p1, p2, p3, p4, p5, p6, p7, p8⟩ := cba_proj cb key
  refine ⟨p3, p4, p5, ?_, ?_⟩
  · rw [p8, foldl_bitinc_length]
  · intro p hp
    rw [p8]
    exact foldl_bitinc_mono _ _ _ hwf.2.2.1 hp

theorem cbc_eq_one {cb : CBloom} {key : List Nat} (hall : subAllSet cb key) :
    counting_bloom_check cb key = 1 := by
  unfold counting_bloom_check
  rw [if_pos (by
    rw [List.all_eq_true]
    intro p hp
    simpa using hall p hp)]

theorem cbmono_refl (cb : CBloom) : CBMono cb cb :=
  ⟨rfl, rfl, rfl, rfl, fun _ h => h⟩

theorem cbmono_trans {a b c : CBloom} (h1 : CBMono a b) (h2 : CBMono b c) : CBMono a c :=
  ⟨h2.1.trans h1.1, h2.2.1.trans h1.2.1, h2.2.2.1.trans h1.2.2.1,
    h2.2.2.2.1.trans h1.2.2.2.1, fun p hp => h2.2.2.2.2 p (h1.2.2.2.2 p hp)⟩

theorem bloomsMono_refl (bs : List CBloom) : BloomsMono bs bs :=
  ⟨Nat.le_refl _, fun _ _ => cbmono_refl _⟩

theorem bloomsMono_trans {a b c : List CBloom} (h1 : BloomsMono a b) (h2 : BloomsMono b c) :
    BloomsMono a c :=
  ⟨h1.1.trans h2.1, fun j hj => cbmono_trans (h1.2 j hj) (h2.2 j (Nat.lt_of_lt_of_le hj h1.1))⟩

theorem subAllSet_of_mono {cb cb' : CBloom} {key : List Nat} (hm : CBMono cb cb')
    (h : subAllSet cb key) : subAllSet cb' key := by
  intro p hp
  rw [dabIndices_congr cb cb' key hm.1 hm.2.1] at hp
  exact hm.2.2.2.2 p (h p hp)

theorem modifyBloomAt_length (bs : List CBloom) (i : Nat) (f : CBloom → CBloom) :
    (modifyBloomAt bs i f).length = bs.length := by
  simp [modifyBloomAt]

theorem modifyBloomAt_getD_self {bs : List CBloom} {i : Nat} (f : CBloom → CBloom)
    (h : i < bs.length) :
    (modifyBloomAt bs i f).getD i cbDefault = f (bs.getD i cbDefault) :=
  getD_set_self h

theorem modifyBloomAt_getD_ne {bs : List CBloom} {i j : Nat} (f : CBloom → CBloom)
    (h : i ≠ j) : (modifyBloomAt bs i f).getD j cbDefault = bs.getD j cbDefault :=
  getD_set_ne h

theorem modifyBloomAt_oob {bs : List CBloom} {i : Nat} (f : CBloom → CBloom)
    (h : bs.length ≤ i) : modifyBloomAt bs i f = bs :=
  List.set_eq_of_length_le h

theorem getD_mem_of_lt {bs : List CBloom} {i : Nat} (h : i < bs.length) :
    bs.getD i cbDefault ∈ bs := by
  rw [List.getD_eq_getElem _ _ h]
  exact List.getElem_mem h

theorem wf_modify (bs : List CBloom) (i : Nat) (f : CBloom → CBloom)
    (hwf : ∀ cb ∈ bs, CBloomWF cb) (hpres : ∀ cb, CBloomWF cb → CBloomWF (f cb)) :
    ∀ cb ∈ modifyBloomAt bs i f, CBloomWF cb := by
  by_cases hi : i < bs.length
  · intro cb hcb
    rcases List.mem_or_eq_of_mem_set hcb with h | rfl
    · exact hwf cb h
    · exact hpres _ (hwf _ (getD_mem_of_lt hi))
  · rw [modifyBloomAt_oob f (Nat.le_of_not_lt hi)]
    exact hwf

theorem mono_modify_add (bs : List CBloom) (k : Nat) (key : List Nat)
    (hwf : ∀ cb ∈ bs, CBloomWF cb) :
    BloomsMono bs (modifyBloomAt bs k (fun cb => (counting_bloom_add cb key).2)) := by
  refine ⟨by rw [modifyBloomAt_length], ?_⟩
  intro j hj
  by_cases hjk : j = k
  · subst hjk
    rw [modifyBloomAt_getD_self _ hj]
    exact cba_mono key (hwf _ (getD_mem_of_lt hj))
  · rw [modifyBloomAt_getD_ne _ (fun e => hjk e.symm)]
    exact cbmono_refl _

theorem mono_append_modify (bs : List CBloom) (cbNew : CBloom) (f : CBloom → CBloom) :
    BloomsMono bs (modifyBloomAt (bs ++ [cbNew]) bs.length f) := by
  refine ⟨by rw [modifyBloomAt_length]; simp, ?_⟩
  intro j hj
  rw [modifyBloomAt_getD_ne _ (by omega)]
  rw [List.getD_append _ _ _ _ hj]
  exact cbmono_refl _

theorem routeIdx_lt (bs : List CBloom) (id : Nat) (hne : bs ≠ []) :
    routeIdx bs id < bs.length := by
  unfold routeIdx
  cases hf : (List.range bs.length).reverse.find? (fun i => id ≥ (bs.getD i cbDefault).id) with
  | none =>
    cases bs with
    | nil => exact absurd rfl hne
    | cons a t => simp
  | some i =>
    have := List.find?_some hf
    have hmem := List.mem_of_find?_eq_some hf
    rw [List.mem_reverse, List.mem_range] at hmem
    exact hmem

theorem tag_wf (count id : Nat) (cb : CBloom) (h : CBloomWF cb) :
    CBloomWF { cb with count := count, id := id } :=
  ⟨h.1, h.2.1, h.2.2.1, h.2.2.2⟩

theorem new_sub_wf (geom : ℚ → Nat × Nat) (hg : GeomPos geom) (capacity : Nat) (er : ℚ) :
    CBloomWF
      { capacity := capacity, error_rate := er, nfuncs := (geom er).1,
        counts_per_func := (geom er).2, size := (geom er).1 * (geom er).2, id := 0, count := 0,
        bytes := List.replicate (((geom er).1 * (geom er).2 + 1) / 2) 0 } := by
  refine ⟨rfl, by simp, ?_, hg er⟩
  intro b hb
  rw [List.eq_of_mem_replicate hb]
  omega

theorem clear_proj (sb : SBloom) :
    (scaling_bloom_clear_seqnums sb).2.1.blooms = sb.blooms ∧
      (scaling_bloom_clear_seqnums sb).2.1.capacity = sb.capacity ∧
      (scaling_bloom_clear_seqnums sb).2.1.error_rate = sb.error_rate ∧
      (scaling_bloom_clear_seqnums sb).2.1.max_id = sb.max_id ∧
      (scaling_bloom_clear_seqnums sb).2.1.disk_seqnum = 0 ∧
      (scaling_bloom_clear_seqnums sb).2.2 = (if sb.disk_seqnum ≠ 0 then 1 else 0) ∧
      (scaling_bloom_clear_seqnums sb).1 = sb.mem_seqnum := by
  unfold scaling_bloom_clear_seqnums
  split_ifs with h
  · exact ⟨rfl, rfl, rfl, rfl, rfl, rfl, rfl⟩
  · exact ⟨rfl, rfl, rfl, rfl, not_ne_iff.mp h, rfl, rfl⟩

theorem clear_state_eq (sb : SBloom) :
    (scaling_bloom_clear_seqnums sb).2.1 = { sb with mem_seqnum := 0, disk_seqnum := 0 } := by
  unfold scaling_bloom_clear_seqnums
  split_ifs with h
  · rfl
  · have h0 : sb.disk_seqnum = 0 := not_ne_iff.mp h
    dsimp only
    rw [h0]

theorem clear_seq_eq (sb : SBloom) : (scaling_bloom_clear_seqnums sb).1 = sb.mem_seqnum := by
  unfold scaling_bloom_clear_seqnums
  split_ifs <;> rfl

theorem clear_flush_eq (sb : SBloom) :
    (scaling_bloom_clear_seqnums sb).2.2 = (if sb.disk_seqnum ≠ 0 then 1 else 0) := by
  unfold scaling_bloom_clear_seqnums
  split_ifs <;> rfl

theorem sba_minor (geom : ℚ → Nat × Nat) (sb : SBloom) (key : List Nat) (id : Nat) :
    (scaling_bloom_add geom sb key id).2.1.capacity = sb.capacity ∧
      (scaling_bloom_add geom sb key id).2.1.error_rate = sb.error_rate ∧
      (scaling_bloom_add geom sb key id).2.1.max_id
        = (if sb.max_id < id then id else sb.max_id) ∧
      (scaling_bloom_add geom sb key id).2.1.disk_seqnum = 0 ∧
      (scaling_bloom_add geom sb key id).2.1.mem_seqnum = (sb.mem_seqnum + 1) % U64 ∧
      (scaling_bloom_add geom sb key id).2.2 = (if sb.disk_seqnum ≠ 0 then 1 else 0) ∧
      (scaling_bloom_add geom sb key id).1 = 1 := by
  unfold scaling_bloom_add
  dsimp only
  rw [clear_state_eq, clear_seq_eq, clear_flush_eq]
  unfold new_counting_bloom_from_scale
  dsimp only
  split_ifs <;> exact ⟨rfl, rfl, rfl, rfl, rfl, rfl, rfl⟩

theorem sba_blooms_char (geom : ℚ → Nat × Nat) (sb : SBloom) (key : List Nat) (id : Nat) :
    (scaling_bloom_add geom sb key id).2.1.blooms =
      (if id > sb.max_id ∧
          (sb.blooms.getD (routeIdx sb.blooms id) cbDefault).count ≥ sb.capacity - 1 then
        modifyBloomAt
          (modifyBloomAt
            (new_counting_bloom_from_scale geom
              { sb with mem_seqnum := 0, disk_seqnum := 0 }).blooms
            ((new_counting_bloom_from_scale geom
              { sb with mem_seqnum := 0, disk_seqnum := 0 }).blooms.length - 1)
            (fun cb => { cb with count := 0, id := sb.max_id + 1 }))
          ((new_counting_bloom_from_scale geom
            { sb with mem_seqnum := 0, disk_seqnum := 0 }).blooms.length - 1)
          (fun cb => (counting_bloom_add cb key).2)
      else
        modifyBloomAt sb.blooms (routeIdx sb.blooms id)
          (fun cb => (counting_bloom_add cb key).2)) := by
  unfold scaling_bloom_add
  dsimp only
  rw [clear_state_eq]
  dsimp only
  split_ifs <;> rfl

theorem from_scale_blooms (geom : ℚ → Nat × Nat) (sb : SBloom) :
    (new_counting_bloom_from_scale geom sb).blooms
      = sb.blooms ++
        [{ capacity := sb.capacity,
           error_rate := sb.error_rate * (1 / 2) ^ (sb.blooms.length + 1),
           nfuncs := (geom (sb.error_rate * (1 / 2) ^ (sb.blooms.length + 1))).1,
           counts_per_func := (geom (sb.error_rate * (1 / 2) ^ (sb.blooms.length + 1))).2,
           size := (geom (sb.error_rate * (1 / 2) ^ (sb.blooms.length + 1))).1
             * (geom (sb.error_rate * (1 / 2) ^ (sb.blooms.length + 1))).2,
           id := 0, count := 0,
           bytes := List.replicate
             (((geom (sb.error_rate * (1 / 2) ^ (sb.blooms.length + 1))).1
               * (geom (sb.error_rate * (1 / 2) ^ (sb.blooms.length + 1))).2 + 1) / 2) 0 }] := by
  unfold new_counting_bloom_from_scale
  rfl

theorem from_scale_length (geom : ℚ → Nat × Nat) (sb : SBloom) :
    (new_counting_bloom_from_scale geom sb).blooms.length = sb.blooms.length + 1 := by
  rw [from_scale_blooms]
  simp

theorem from_scale_getD_front (geom : ℚ → Nat × Nat) (sb : SBloom) (j : Nat)
    (hj : j < sb.blooms.length) :
    (new_counting_bloom_from_scale geom sb).blooms.getD j cbDefault
      = sb.blooms.getD j cbDefault := by
  rw [from_scale_blooms]
  exact List.getD_append _ _ _ _ hj

theorem from_scale_getD_last (geom : ℚ → Nat × Nat) (sb : SBloom) (hg : GeomPos geom) :
    CBloomWF ((new_counting_bloom_from_scale geom sb).blooms.getD sb.blooms.length cbDefault)
      ∧ ((new_counting_bloom_from_scale geom sb).blooms.getD sb.blooms.length cbDefault).id = 0
      ∧ ((new_counting_bloom_from_scale geom sb).blooms.getD
          sb.blooms.length cbDefault).count = 0
      ∧ ((new_counting_bloom_from_scale geom sb).blooms.getD
          sb.blooms.length cbDefault).error_rate
        = sb.error_rate * (1 / 2) ^ (sb.blooms.length + 1) := by
  rw [from_scale_blooms]
  rw [List.getD_append_right _ _ _ _ (Nat.le_refl _)]
  rw [Nat.sub_self]
  exact ⟨new_sub_wf geom hg _ _, rfl, rfl, rfl⟩

theorem from_scale_wf (geom : ℚ → Nat × Nat) (sb : SBloom) (hg : GeomPos geom)
    (hwf : ∀ cb ∈ sb.blooms, CBloomWF cb) :
    ∀ cb ∈ (new_counting_bloom_from_scale geom sb).blooms, CBloomWF cb := by
  rw [from_scale_blooms]
  intro cb hcb
  rcases List.mem_append.mp hcb with h | h
  · exact hwf cb h
  · rw [List.mem_singleton.mp h]
    exact new_sub_wf geom hg _ _

theorem from_scale_mono (geom : ℚ → Nat × Nat) (sb : SBloom) :
    BloomsMono sb.blooms (new_counting_bloom_from_scale geom sb).blooms := by
  refine ⟨by rw [from_scale_length]; omega, ?_⟩
  intro j hj
  rw [from_scale_getD_front _ _ _ hj]
  exact cbmono_refl _

theorem tag_mono (cb : CBloom) (count id : Nat) :
    CBMono cb { cb with count := count, id := id } :=
  ⟨rfl, rfl, rfl, rfl, fun _ h => h⟩

theorem mono_modify_tag (bs : List CBloom) (k count id : Nat) :
    BloomsMono bs (modifyBloomAt bs k (fun cb => { cb with count := count, id := id })) := by
  refine ⟨by rw [modifyBloomAt_length], ?_⟩
  intro j hj
  by_cases hjk : j = k
  · subst hjk
    rw [modifyBloomAt_getD_self _ hj]
    exact tag_mono _ _ _
  · rw [modifyBloomAt_getD_ne _ (fun e => hjk e.symm)]
    exact cbmono_refl _

theorem sba_facts (geom : ℚ → Nat × Nat) (sb : SBloom) (key : List Nat) (id : Nat)
    (hg : GeomPos geom) (hwf : SBloomWF sb) (hne : sb.blooms ≠ []) :
    SBloomWF (scaling_bloom_add geom sb key id).2.1 ∧
      BloomsMono sb.blooms (scaling_bloom_add geom sb key id).2.1.blooms ∧
      (∃ j, j < (scaling_bloom_add geom sb key id).2.1.blooms.length ∧
        subAllSet ((scaling_bloom_add geom sb key id).2.1.blooms.getD j cbDefault) key) ∧
      (scaling_bloom_add geom sb key id).2.1.blooms ≠ [] := by
  have hchar := sba_blooms_char geom sb key id
  unfold SBloomWF
  rw [hchar]
  split_ifs with hgrow
  · have hL := from_scale_length geom { sb with mem_seqnum := 0, disk_seqnum := 0 }
    have hidx : (new_counting_bloom_from_scale geom
        { sb with mem_seqnum := 0, disk_seqnum := 0 }).blooms.length - 1
        = sb.blooms.length := by
      rw [hL]
      simp
    rw [hidx]
    have hLwf : ∀ cb ∈ (new_counting_bloom_from_scale geom
        { sb with mem_seqnum := 0, disk_seqnum := 0 }).blooms, CBloomWF cb :=
      from_scale_wf _ _ hg hwf
    have htagwf : ∀ cb ∈ modifyBloomAt (new_counting_bloom_from_scale geom
        { sb with mem_seqnum := 0, disk_seqnum := 0 }).blooms sb.blooms.length
        (fun cb => { cb with count := 0, id := sb.max_id + 1 }), CBloomWF cb :=
      wf_modify _ _ _ hLwf (fun cb h => tag_wf _ _ cb h)
    have hlen1 : (modifyBloomAt (new_counting_bloom_from_scale geom
        { sb with mem_seqnum := 0, disk_seqnum := 0 }).blooms sb.blooms.length
        (fun cb => { cb with count := 0, id := sb.max_id + 1 })).length
        = sb.blooms.length + 1 := by
      rw [modifyBloomAt_length, hL]
    refine ⟨wf_modify _ _ _ htagwf (fun cb h => cba_wf key h), ?_, ?_, ?_⟩
    · exact bloomsMono_trans (from_scale_mono _ _)
        (bloomsMono_trans (mono_modify_tag _ _ _ _) (mono_modify_add _ _ key htagwf))
    · refine ⟨sb.blooms.length, ?_, ?_⟩
      · rw [modifyBloomAt_length, hlen1]
        omega
      · rw [modifyBloomAt_getD_self _ (by rw [hlen1]; omega)]
        exact cba_sets key (htagwf _ (getD_mem_of_lt (by rw [hlen1]; omega)))
    · intro hempty
      have hz := congrArg List.length hempty
      rw [modifyBloomAt_length, hlen1] at hz
      simp at hz
  · have hi := routeIdx_lt sb.blooms id hne
    refine ⟨wf_modify _ _ _ hwf (fun cb h => cba_wf key h), mono_modify_add _ _ key hwf,
      ⟨routeIdx sb.blooms id, ?_, ?_⟩, ?_⟩
    · rw [modifyBloomAt_length]
      exact hi
    · rw [modifyBloomAt_getD_self _ hi]
      exact cba_sets key (hwf _ (getD_mem_of_lt hi))
    · intro hempty
      have hz := congrArg List.length hempty
      rw [modifyBloomAt_length] at hz
      simp only [List.length_nil] at hz
      exact hne (List.eq_nil_of_length_eq_zero hz)

theorem scaling_check_of_sub (sb : SBloom) (key : List Nat) (j : Nat)
    (hj : j < sb.blooms.length)
    (h : counting_bloom_check (sb.blooms.getD j cbDefault) key = 1) :
    scaling_bloom_check sb key = 1 := by
  unfold scaling_bloom_check
  rw [if_pos]
  rw [List.any_eq_true]
  refine ⟨sb.blooms.getD j cbDefault, ?_, ?_⟩
  · rw [List.mem_reverse]
    exact getD_mem_of_lt hj
  · rw [h]
    decide

theorem scaling_check_eq_zero_iff (sb : SBloom) (key : List Nat) :
    scaling_bloom_check sb key = 0 ↔
      sb.blooms.reverse.any (fun cb => counting_bloom_check cb key ≠ 0) = false := by
  unfold scaling_bloom_check
  split_ifs with h
  · constructor
    · intro h10
      exact absurd h10 (by decide)
    · intro hf
      rw [h] at hf
      exact Bool.noConfusion hf
  · simp only [Bool.not_eq_true] at h
    exact ⟨fun _ => h, fun _ => rfl⟩

theorem scba_of_check_one (geom : ℚ → Nat × Nat) (sb : SBloom) (key : List Nat) (id : Nat)
    (h : scaling_bloom_check sb key = 1) :
    scaling_bloom_check_add geom sb key id = (1, sb, 0) := by
  have hc : (sb.blooms.reverse.any fun cb => decide (counting_bloom_check cb key ≠ 0))
      = true := by
    unfold scaling_bloom_check at h
    by_cases hx : (sb.blooms.reverse.any fun cb => decide (counting_bloom_check cb key ≠ 0))
        = true
    · exact hx
    · rw [if_neg hx] at h
      exact absurd h (by decide)
  unfold scaling_bloom_check_add
  rw [if_pos hc]

theorem scba_minor (geom : ℚ → Nat × Nat) (sb : SBloom) (key : List Nat) (id : Nat)
    (hmiss : sb.blooms.reverse.any (fun cb => counting_bloom_check cb key ≠ 0) = false) :
    (scaling_bloom_check_add geom sb key id).2.1.capacity = sb.capacity ∧
      (scaling_bloom_check_add geom sb key id).2.1.error_rate = sb.error_rate ∧
      (scaling_bloom_check_add geom sb key id).2.1.disk_seqnum = 0 ∧
      (scaling_bloom_check_add geom sb key id).2.2 = (if sb.disk_seqnum ≠ 0 then 1 else 0) ∧
      (scaling_bloom_check_add geom sb key id).1 = 0 := by
  unfold scaling_bloom_check_add
  rw [if_neg (by rw [hmiss]; exact Bool.false_ne_true)]
  dsimp only
  rw [clear_state_eq, clear_flush_eq]
  unfold new_counting_bloom_from_scale
  dsimp only
  split_ifs <;> exact ⟨rfl, rfl, rfl, rfl, rfl⟩

theorem scba_blooms_char (geom : ℚ → Nat × Nat) (sb : SBloom) (key : List Nat) (id : Nat)
    (hmiss : sb.blooms.reverse.any (fun cb => counting_bloom_check cb key ≠ 0) = false) :
    (scaling_bloom_check_add geom sb key id).2.1.blooms =
      (if id > sb.max_id ∧
          (sb.blooms.getD
            (if sb.blooms.any (fun cb => id ≥ cb.id) then 0 else sb.blooms.length - 1)
            cbDefault).count ≥ sb.capacity - 1 then
        modifyBloomAt
          (modifyBloomAt
            (new_counting_bloom_from_scale geom
              { sb with mem_seqnum := 0, disk_seqnum := 0 }).blooms
            ((new_counting_bloom_from_scale geom
              { sb with mem_seqnum := 0, disk_seqnum := 0 }).blooms.length - 1)
            (fun cb => { cb with count := 0, id := sb.max_id + 1 }))
          ((new_counting_bloom_from_scale geom
            { sb with mem_seqnum := 0, disk_seqnum := 0 }).blooms.length - 1)
          (fun cb => (counting_bloom_add cb key).2)
      else
        modifyBloomAt sb.blooms
          (if sb.blooms.any (fun cb => id ≥ cb.id) then 0 else sb.blooms.length - 1)
          (fun cb => (counting_bloom_add cb key).2)) := by
  unfold scaling_bloom_check_add
  rw [if_neg (by rw [hmiss]; exact Bool.false_ne_true)]
  dsimp only
  rw [clear_state_eq]
  dsimp only
  split_ifs <;> rfl

theorem scba_facts (geom : ℚ → Nat × Nat) (sb : SBloom) (key : List Nat) (id : Nat)
    (hg : GeomPos geom) (hwf : SBloomWF sb) (hne : sb.blooms ≠ [])
    (hmiss : sb.blooms.reverse.any (fun cb => counting_bloom_check cb key ≠ 0) = false) :
    SBloomWF (scaling_bloom_check_add geom sb key id).2.1 ∧
      BloomsMono sb.blooms (scaling_bloom_check_add geom sb key id).2.1.blooms ∧
      (scaling_bloom_check_add geom sb key id).2.1.blooms ≠ [] := by
  have hchar := scba_blooms_char geom sb key id hmiss
  unfold SBloomWF
  rw [hchar]
  have hi : (if sb.blooms.any (fun cb => id ≥ cb.id) then 0 else sb.blooms.length - 1)
      < sb.blooms.length := by
    have hpos : 0 < sb.blooms.length := List.length_pos.mpr hne
    split_ifs <;> omega
  by_cases hgrow : id > sb.max_id ∧
      (sb.blooms.getD
        (if sb.blooms.any (fun cb => id ≥ cb.id) then 0 else sb.blooms.length - 1)
        cbDefault).count ≥ sb.capacity - 1
  case pos =>
    rw [if_pos hgrow]
    have hL := from_scale_length geom { sb with mem_seqnum := 0, disk_seqnum := 0 }
    have hidx : (new_counting_bloom_from_scale geom
        { sb with mem_seqnum := 0, disk_seqnum := 0 }).blooms.length - 1
        = sb.blooms.length := by
      rw [hL]
      simp
    rw [hidx]
    have hLwf : ∀ cb ∈ (new_counting_bloom_from_scale geom
        { sb with mem_seqnum := 0, disk_seqnum := 0 }).blooms, CBloomWF cb :=
      from_scale_wf _ _ hg hwf
    have htagwf : ∀ cb ∈ modifyBloomAt (new_counting_bloom_from_scale geom
        { sb with mem_seqnum := 0, disk_seqnum := 0 }).blooms sb.blooms.length
        (fun cb => { cb with count := 0, id := sb.max_id + 1 }), CBloomWF cb :=
      wf_modify _ _ _ hLwf (fun cb h => tag_wf _ _ cb h)
    have hlen1 : (modifyBloomAt (new_counting_bloom_from_scale geom
        { sb with mem_seqnum := 0, disk_seqnum := 0 }).blooms sb.blooms.length
        (fun cb => { cb with count := 0, id := sb.max_id + 1 })).length
        = sb.blooms.length + 1 := by
      rw [modifyBloomAt_length, hL]
    refine ⟨wf_modify _ _ _ htagwf (fun cb h => cba_wf key h), ?_, ?_⟩
    · exact bloomsMono_trans (from_scale_mono _ _)
        (bloomsMono_trans (mono_modify_tag _ _ _ _) (mono_modify_add _ _ key htagwf))
    · intro hempty
      have hz := congrArg List.length hempty
      rw [modifyBloomAt_length, hlen1] at hz
      simp at hz
  case neg =>
    rw [if_neg hgrow]
    refine ⟨wf_modify _ _ _ hwf (fun cb h => cba_wf key h), mono_modify_add _ _ key hwf, ?_⟩
    intro hempty
    have hz := congrArg List.length hempty
    rw [modifyBloomAt_length] at hz
    simp only [List.length_nil] at hz
    exact hne (List.eq_nil_of_length_eq_zero hz)

theorem sbr_disk (sb : SBloom) (key : List Nat) (id : Nat) (h : sb.disk_seqnum = 0) :
    (scaling_bloom_remove sb key id).2.1.disk_seqnum = 0 := by
  unfold scaling_bloom_remove
  cases hf : (List.range sb.blooms.length).reverse.find?
      (fun i => id ≥ (sb.blooms.getD i cbDefault).id) with
  | none => exact h
  | some i =>
    show ((scaling_bloom_clear_seqnums sb).2.1).disk_seqnum = 0
    rw [clear_state_eq]

theorem sbf_state (sb : SBloom) :
    (scaling_bloom_flush sb).2.1.disk_seqnum
        = (if sb.disk_seqnum = 0 then sb.mem_seqnum else sb.disk_seqnum) ∧
      (scaling_bloom_flush sb).2.2 = (if sb.disk_seqnum = 0 then 2 else 1) ∧
      (scaling_bloom_flush sb).2.1.blooms = sb.blooms := by
  unfold scaling_bloom_flush
  split_ifs <;> exact ⟨rfl, rfl, rfl⟩

theorem scaling_check_cases (sb : SBloom) (key : List Nat) :
    scaling_bloom_check sb key = 1 ∨ scaling_bloom_check sb key = 0 := by
  unfold scaling_bloom_check
  split_ifs
  · exact Or.inl rfl
  · exact Or.inr rfl

theorem sop_step_inv (geom : ℚ → Nat × Nat) (hg : GeomPos geom) (sb : SBloom) (o : SOp)
    (ho : ∀ key id, o ≠ SOp.remove key id) (hwf : SBloomWF sb) (hne : sb.blooms ≠ []) :
    SBloomWF (applySOp geom sb o) ∧ BloomsMono sb.blooms (applySOp geom sb o).blooms ∧
      (applySOp geom sb o).blooms ≠ [] := by
  cases o with
  | add key id =>
    have hf := sba_facts geom sb key id hg hwf hne
    exact ⟨hf.1, hf.2.1, hf.2.2.2⟩
  | checkAdd key id =>
    simp only [applySOp]
    by_cases hch : scaling_bloom_check sb key = 1
    · rw [scba_of_check_one geom sb key id hch]
      exact ⟨hwf, bloomsMono_refl _, hne⟩
    · have h0 : scaling_bloom_check sb key = 0 := by
        rcases scaling_check_cases sb key with h | h
        · exact absurd h hch
        · exact h
      have hmiss := (scaling_check_eq_zero_iff sb key).mp h0
      exact scba_facts geom sb key id hg hwf hne hmiss
  | remove key id => exact absurd rfl (ho key id)
  | flush =>
    simp only [applySOp]
    have hb := (sbf_state sb).2.2
    refine ⟨?_, ?_, ?_⟩
    · unfold SBloomWF
      rw [hb]
      exact hwf
    · rw [hb]
      exact bloomsMono_refl _
    · rw [hb]
      exact hne

theorem sops_inv (geom : ℚ → Nat × Nat) (hg : GeomPos geom) (ops : List SOp)
    (hnr : ∀ key id, SOp.remove key id ∉ ops) (sb : SBloom) (hwf : SBloomWF sb)
    (hne : sb.blooms ≠ []) :
    SBloomWF (applySOps geom sb ops) ∧ BloomsMono sb.blooms (applySOps geom sb ops).blooms ∧
      (applySOps geom sb ops).blooms ≠ [] := by
  induction ops generalizing sb with
  | nil => exact ⟨hwf, bloomsMono_refl _, hne⟩
  | cons o t ih =>
    have hstep := sop_step_inv geom hg sb o
      (fun key id e => hnr key id (e ▸ List.mem_cons_self o t)) hwf hne
    have hrest := ih (fun key id hm => hnr key id (List.mem_cons_of_mem _ hm))
      (applySOp geom sb o) hstep.1 hstep.2.2
    exact ⟨hrest.1, bloomsMono_trans hstep.2.1 hrest.2.1, hrest.2.2⟩

theorem sop_step_disk0 (geom : ℚ → Nat × Nat) (sb : SBloom) (o : SOp)
    (ho : o ≠ SOp.flush) (h : sb.disk_seqnum = 0) :
    (applySOp geom sb o).disk_seqnum = 0 := by
  cases o with
  | add key id => exact (sba_minor geom sb key id).2.2.2.1
  | checkAdd key id =>
    simp only [applySOp]
    by_cases hch : scaling_bloom_check sb key = 1
    · rw [scba_of_check_one geom sb key id hch]
      exact h
    · have h0 : scaling_bloom_check sb key = 0 := by
        rcases scaling_check_cases sb key with hx | hx
        · exact absurd hx hch
        · exact hx
      exact ((scba_minor geom sb key id ((scaling_check_eq_zero_iff sb key).mp h0))).2.2.1
  | remove key id => exact sbr_disk sb key id h
  | flush => exact absurd rfl ho

theorem sops_disk0 (geom : ℚ → Nat × Nat) (ops : List SOp) (hnf : SOp.flush ∉ ops)
    (sb : SBloom) (h : sb.disk_seqnum = 0) :
    (applySOps geom sb ops).disk_seqnum = 0 := by
  induction ops generalizing sb with
  | nil => exact h
  | cons o t ih =>
    exact ih (fun hm => hnf (List.mem_cons_of_mem _ hm)) _
      (sop_step_disk0 geom sb o
        (fun e => hnf (e ▸ List.mem_cons_self o t)) h)

theorem ca64_fold_facts (rest : List (List Nat)) (b : Bloom) (hwf : BloomWF b) :
    BloomWF (rest.foldl (fun s y => (bloom_check_add_64 s y).2) b) ∧
      (rest.foldl (fun s y => (bloom_check_add_64 s y).2) b).bits = b.bits ∧
      (rest.foldl (fun s y => (bloom_check_add_64 s y).2) b).hashes = b.hashes ∧
      ∀ y, qbit b.bf64 y = true →
        qbit (rest.foldl (fun s y => (bloom_check_add_64 s y).2) b).bf64 y = true := by
  induction rest generalizing b with
  | nil => exact ⟨hwf, rfl, rfl, fun _ h => h⟩
  | cons a t ih =>
    simp only [List.foldl_cons]
    obtain ⟨p1, p2, _⟩ := @ca64_params b a
    have hrec := ih (bloom_check_add_64 b a).2 (ca64_wf hwf)
    refine ⟨hrec.1, ?_, ?_, ?_⟩
    · rw [hrec.2.1, p1]
    · rw [hrec.2.2.1, p2]
    · intro y hy
      exact hrec.2.2.2 y (ca64_bit_mono hwf y hy)

theorem ecb_add_proj (bl : ECBloom) (x : List Nat) (hr : bl.ready ≠ 0) :
    (enhanced_counting_bloom_add bl x).2.counters = bl.counters ∧
      (enhanced_counting_bloom_add bl x).2.hashes = bl.hashes ∧
      (enhanced_counting_bloom_add bl x).2.ready = bl.ready ∧
      (enhanced_counting_bloom_add bl x).2.counts
        = (ecbIndices bl x).foldl increment_counter bl.counts := by
  unfold enhanced_counting_bloom_add
  rw [if_neg hr]
  dsimp only
  split_ifs <;> exact ⟨rfl, rfl, rfl, rfl⟩

theorem ecb_idx_bound (bl : ECBloom) (x : List Nat) (hwf : ECBloomWF bl) :
    ∀ i ∈ ecbIndices bl x, i / 2 < bl.counts.length := by
  intro i hi
  have := bloomIndices_lt bl.counters bl.hashes x hwf.1 i hi
  have := hwf.2.1
  omega

theorem ecb_wf (bl : ECBloom) (x : List Nat) (hr : bl.ready ≠ 0) (hwf : ECBloomWF bl) :
    ECBloomWF (enhanced_counting_bloom_add bl x).2 := by
  obtain ⟨p1, _, _, p4⟩ := ecb_add_proj bl x hr
  refine ⟨p1 ▸ hwf.1, ?_, ?_⟩
  · rw [p1, p4, foldl_increment_length]
    exact hwf.2.1
  · rw [p4]
    exact foldl_increment_mem_lt _ _ hwf.2.2

theorem ecb_add_sets (bl : ECBloom) (x : List Nat) (hr : bl.ready ≠ 0) (hwf : ECBloomWF bl) :
    ∀ i ∈ ecbIndices bl x, get_counter (enhanced_counting_bloom_add bl x).2.counts i ≠ 0 := by
  obtain ⟨_, _, _, p4⟩ := ecb_add_proj bl x hr
  rw [p4]
  exact foldl_increment_sets _ _ hwf.2.2 (ecb_idx_bound bl x hwf)

theorem ecb_add_mono (bl : ECBloom) (x : List Nat) (hr : bl.ready ≠ 0) (hwf : ECBloomWF bl)
    (q : Nat) (h : get_counter bl.counts q ≠ 0) :
    get_counter (enhanced_counting_bloom_add bl x).2.counts q ≠ 0 := by
  obtain ⟨_, _, _, p4⟩ := ecb_add_proj bl x hr
  rw [p4]
  exact foldl_increment_mono _ _ _ hwf.2.2 h

theorem ecb_fold_facts (rest : List (List Nat)) (b : ECBloom) (hr : b.ready ≠ 0)
    (hwf : ECBloomWF b) :
    ECBloomWF (rest.foldl (fun s y => (enhanced_counting_bloom_add s y).2) b) ∧
      (rest.foldl (fun s y => (enhanced_counting_bloom_add s y).2) b).counters = b.counters ∧
      (rest.foldl (fun s y => (enhanced_counting_bloom_add s y).2) b).hashes = b.hashes ∧
      (rest.foldl (fun s y => (enhanced_counting_bloom_add s y).2) b).ready = b.ready ∧
      ∀ q, get_counter b.counts q ≠ 0 →
        get_counter
          (rest.foldl (fun s y => (enhanced_counting_bloom_add s y).2) b).counts q ≠ 0 := by
  induction rest generalizing b with
  | nil => exact ⟨hwf, rfl, rfl, rfl, fun _ h => h⟩
  | cons a t ih =>
    simp only [List.foldl_cons]
    obtain ⟨p1, p2, p3, _⟩ := ecb_add_proj b a hr
    have hrec := ih (enhanced_counting_bloom_add b a).2 (by rw [p3]; exact hr)
      (ecb_wf b a hr hwf)
    refine ⟨hrec.1, ?_, ?_, ?_, ?_⟩
    · rw [hrec.2.1, p1]
    · rw [hrec.2.2.1, p2]
    · rw [hrec.2.2.2.1, p3]
    · intro q hq
      exact hrec.2.2.2.2 q (ecb_add_mono b a hr hwf q hq)

theorem ecb_check_one (bl : ECBloom) (x : List Nat) (hr : bl.ready ≠ 0)
    (hall : ∀ i ∈ ecbIndices bl x, get_counter bl.counts i ≠ 0) :
    enhanced_counting_bloom_check bl x = 1 := by
  unfold enhanced_counting_bloom_check
  rw [if_neg hr, if_pos (by
    rw [List.all_eq_true]
    intro i hi
    simpa using hall i hi)]

/-- Claim C1: no false negatives.  For the basic 64-bit filter, the
enhanced counting filter, and the scaling filter, any item once inserted
is reported present by every subsequent check or check-and-add, across any
number of intervening insertions (and, for the scaling filter, flushes and
check-and-adds), as long as no remove or reset intervenes. -/
theorem no_false_negatives :
    (∀ (bl : Bloom) (x : List Nat) (rest : List (List Nat)), BloomWF bl →
      (bloom_check_add_64
        (rest.foldl (fun s y => (bloom_check_add_64 s y).2) (bloom_check_add_64 bl x).2)
        x).1 = 1) ∧
    (∀ (bl : ECBloom) (x : List Nat) (rest : List (List Nat)),
      ECBloomWF bl → bl.ready ≠ 0 →
      enhanced_counting_bloom_check
        (rest.foldl (fun s y => (enhanced_counting_bloom_add s y).2)
          (enhanced_counting_bloom_add bl x).2) x = 1) ∧
    (∀ (geom : ℚ → Nat × Nat) (sb : SBloom) (x : List Nat) (id : Nat) (rest : List SOp),
      GeomPos geom → SBloomWF sb → sb.blooms ≠ [] →
      (∀ key rid, SOp.remove key rid ∉ rest) →
      scaling_bloom_check
        (applySOps geom (scaling_bloom_add geom sb x id).2.1 rest) x = 1) := by
  refine ⟨?_, ?_, ?_⟩
  · intro bl x rest hwf
    have hwf1 := @ca64_wf bl x hwf
    have hins := @ca64_inserted bl x hwf
    obtain ⟨p1, p2, _⟩ := @ca64_params bl x
    have hfold := ca64_fold_facts rest (bloom_check_add_64 bl x).2 hwf1
    apply ca64_ret_one
    intro i hi
    rw [hfold.2.1, hfold.2.2.1, p1, p2] at hi
    rw [qtest_eq_qbit]
    exact hfold.2.2.2 i (hins i hi)
  · intro bl x rest hwf hr
    obtain ⟨p1, p2, p3, _⟩ := ecb_add_proj bl x hr
    have hwf1 := ecb_wf bl x hr hwf
    have hr1 : (enhanced_counting_bloom_add bl x).2.ready ≠ 0 := by rw [p3]; exact hr
    have hins := ecb_add_sets bl x hr hwf
    have hfold := ecb_fold_facts rest (enhanced_counting_bloom_add bl x).2 hr1 hwf1
    apply ecb_check_one _ _ (by rw [hfold.2.2.2.1]; exact hr1)
    intro i hi
    unfold ecbIndices at hi
    rw [hfold.2.1, hfold.2.2.1, p1, p2] at hi
    apply hfold.2.2.2.2
    exact hins i hi
  · intro geom sb x id rest hg hwf hne hnr
    obtain ⟨hwf1, _, ⟨j, hj, hsub⟩, hne1⟩ := sba_facts geom sb x id hg hwf hne
    obtain ⟨hwfF, hmonoF, _⟩ :=
      sops_inv geom hg rest hnr (scaling_bloom_add geom sb x id).2.1 hwf1 hne1
    apply scaling_check_of_sub _ _ j (Nat.lt_of_lt_of_le hj hmonoF.1)
    apply cbc_eq_one
    exact subAllSet_of_mono (hmonoF.2 j hj) hsub

/-- Witness for claim C1 at concrete filters, items and histories. -/
theorem no_false_negatives_witness :
    (bloom_check_add_64
        ([[98]].foldl (fun s y => (bloom_check_add_64 s y).2)
          (bloom_check_add_64 ⟨64, 2, [0]⟩ [97]).2) [97]).1 = 1 ∧
      enhanced_counting_bloom_check
        ([[98]].foldl (fun s y => (enhanced_counting_bloom_add s y).2)
          (enhanced_counting_bloom_add ⟨8, 2, [0, 0, 0, 0], 0, 0, 1⟩ [97]).2) [97] = 1 ∧
      scaling_bloom_check
        (applySOps (fun _ => (1, 4))
          (scaling_bloom_add (fun _ => (1, 4))
            (new_scaling_bloom (fun _ => (1, 4)) 1000 (1 / 100)) [97] 1).2.1
          [SOp.add [98] 2]) [97] = 1 :=
  ⟨no_false_negatives.1 ⟨64, 2, [0]⟩ [97] [[98]] (by decide),
    no_false_negatives.2.1 ⟨8, 2, [0, 0, 0, 0], 0, 0, 1⟩ [97] [[98]] (by decide) (by decide),
    no_false_negatives.2.2 (fun _ => (1, 4))
      (new_scaling_bloom (fun _ => (1, 4)) 1000 (1 / 100)) [97] 1 [SOp.add [98] 2]
      (fun _ => Nat.succ_pos 3) (by decide) (by decide) (by simp)⟩

theorem sbr_facts (sb : SBloom) (key : List Nat) (id : Nat) :
    (scaling_bloom_remove sb key id).1 = 1 →
      (scaling_bloom_remove sb key id).2.1.disk_seqnum = 0 ∧
        (scaling_bloom_remove sb key id).2.2 = (if sb.disk_seqnum ≠ 0 then 1 else 0) := by
  unfold scaling_bloom_remove
  cases hf : (List.range sb.blooms.length).reverse.find?
      (fun i => id ≥ (sb.blooms.getD i cbDefault).id) with
  | none =>
    intro h
    exact (Nat.zero_ne_one h).elim
  | some i =>
    intro _
    constructor
    · show ((scaling_bloom_clear_seqnums sb).2.1).disk_seqnum = 0
      rw [clear_state_eq]
    · show (scaling_bloom_clear_seqnums sb).2.2 = _
      exact clear_flush_eq sb

/-- Claim C4: the crash-consistency protocol of the scaling filter.  Every
mutation (add, inserting check-and-add, matched remove) goes through
scaling_bloom_clear_seqnums, which leaves the disk sequence number zero
and performs exactly one flush when it was nonzero; scaling_bloom_flush
sets the disk sequence number to the memory sequence number only when it
is currently zero, flushing a second time afterwards; consequently,
between a mutation and the next flush the disk sequence number stays
zero over any trace of further operations. -/
theorem scaling_seqnum_protocol :
    (∀ (geom : ℚ → Nat × Nat) (sb : SBloom) (key : List Nat) (id : Nat),
      (scaling_bloom_add geom sb key id).2.1.disk_seqnum = 0 ∧
        (scaling_bloom_add geom sb key id).2.2 = (if sb.disk_seqnum ≠ 0 then 1 else 0)) ∧
    (∀ (geom : ℚ → Nat × Nat) (sb : SBloom) (key : List Nat) (id : Nat),
      scaling_bloom_check sb key = 0 →
      (scaling_bloom_check_add geom sb key id).2.1.disk_seqnum = 0 ∧
        (scaling_bloom_check_add geom sb key id).2.2
          = (if sb.disk_seqnum ≠ 0 then 1 else 0)) ∧
    (∀ (sb : SBloom) (key : List Nat) (id : Nat),
      (scaling_bloom_remove sb key id).1 = 1 →
      (scaling_bloom_remove sb key id).2.1.disk_seqnum = 0 ∧
        (scaling_bloom_remove sb key id).2.2 = (if sb.disk_seqnum ≠ 0 then 1 else 0)) ∧
    (∀ sb : SBloom,
      (scaling_bloom_flush sb).2.1.disk_seqnum
          = (if sb.disk_seqnum = 0 then sb.mem_seqnum else sb.disk_seqnum) ∧
        (scaling_bloom_flush sb).2.2 = (if sb.disk_seqnum = 0 then 2 else 1)) ∧
    (∀ (geom : ℚ → Nat × Nat) (sb : SBloom) (m : SOp) (rest : List SOp),
      ((∃ k i, m = SOp.add k i) ∨
        (∃ k i, m = SOp.checkAdd k i ∧ scaling_bloom_check sb k = 0) ∨
        (∃ k i, m = SOp.remove k i ∧ (scaling_bloom_remove sb k i).1 = 1)) →
      SOp.flush ∉ rest →
      (applySOps geom (applySOp geom sb m) rest).disk_seqnum = 0) := by
  refine ⟨?_, ?_, ?_, ?_, ?_⟩
  · intro geom sb key id
    exact ⟨(sba_minor geom sb key id).2.2.2.1, (sba_minor geom sb key id).2.2.2.2.2.1⟩
  · intro geom sb key id h0
    have hmiss := (scaling_check_eq_zero_iff sb key).mp h0
    exact ⟨(scba_minor geom sb key id hmiss).2.2.1, (scba_minor geom sb key id hmiss).2.2.2.1⟩
  · exact sbr_facts
  · intro sb
    exact ⟨(sbf_state sb).1, (sbf_state sb).2.1⟩
  · intro geom sb m rest hmut hnf
    apply sops_disk0 geom rest hnf
    rcases hmut with ⟨k, i, rfl⟩ | ⟨k, i, rfl, hch⟩ | ⟨k, i, rfl, hret⟩
    · exact (sba_minor geom sb k i).2.2.2.1
    · simp only [applySOp]
      have hmiss := (scaling_check_eq_zero_iff sb k).mp hch
      exact (scba_minor geom sb k i hmiss).2.2.1
    · exact (sbr_facts sb k i hret).1

/-- Witness for claim C4 at a concrete fresh scaling filter. -/
theorem scaling_seqnum_protocol_witness :
    ((scaling_bloom_check_add (fun _ => (1, 4))
        (new_scaling_bloom (fun _ => (1, 4)) 1000 (1 / 100)) [97] 1).2.1.disk_seqnum = 0 ∧
      (scaling_bloom_check_add (fun _ => (1, 4))
        (new_scaling_bloom (fun _ => (1, 4)) 1000 (1 / 100)) [97] 1).2.2
        = (if (new_scaling_bloom (fun _ => (1, 4)) 1000 (1 / 100)).disk_seqnum ≠ 0
            then 1 else 0)) ∧
    ((scaling_bloom_remove (new_scaling_bloom (fun _ => (1, 4)) 1000 (1 / 100))
        [97] 1).2.1.disk_seqnum = 0 ∧
      (scaling_bloom_remove (new_scaling_bloom (fun _ => (1, 4)) 1000 (1 / 100)) [97] 1).2.2
        = (if (new_scaling_bloom (fun _ => (1, 4)) 1000 (1 / 100)).disk_seqnum ≠ 0
            then 1 else 0)) ∧
    (applySOps (fun _ => (1, 4))
      (applySOp (fun _ => (1, 4)) (new_scaling_bloom (fun _ => (1, 4)) 1000 (1 / 100))
        (SOp.add [97] 1))
      [SOp.add [98] 2]).disk_seqnum = 0 :=
  ⟨scaling_seqnum_protocol.2.1 (fun _ => (1, 4))
      (new_scaling_bloom (fun _ => (1, 4)) 1000 (1 / 100)) [97] 1 (by decide),
    scaling_seqnum_protocol.2.2.1 (new_scaling_bloom (fun _ => (1, 4)) 1000 (1 / 100))
      [97] 1 (by decide),
    scaling_seqnum_protocol.2.2.2.2 (fun _ => (1, 4))
      (new_scaling_bloom (fun _ => (1, 4)) 1000 (1 / 100)) (SOp.add [97] 1) [SOp.add [98] 2]
      (Or.inl ⟨[97], 1, rfl⟩) (by decide)⟩

/-- Claim C7, counterexample to the reporting clause.  On an all-zero
counting bloom filter the very first probe of a remove underflows
(bitmap_decrement reports minus one internally), yet counting_bloom_remove
still returns 0 and leaves the bitmap unchanged — the same return value as
a remove on a filter where no underflow occurs, so the condition never
reaches the caller.  Likewise a fully saturated enhanced counting filter
silently absorbs an add: increment_counter is void, every counter stays at
fifteen, and the add reports the ordinary duplicate verdict 1. -/
theorem counter_report_cex :
    (bitmap_decrement [0, 0, 0, 0]
        ((dabIndices ⟨1000, 1/10, 2, 4, 4, 0, 5, [0, 0, 0, 0]⟩ [97]).getD 0 0) 0).1 = -1 ∧
    (counting_bloom_remove ⟨1000, 1/10, 2, 4, 4, 0, 5, [0, 0, 0, 0]⟩ [97]).1 = 0 ∧
    (counting_bloom_remove ⟨1000, 1/10, 2, 4, 4, 0, 5, [255, 255, 255, 255]⟩ [97]).1 = 0 ∧
    (counting_bloom_remove ⟨1000, 1/10, 2, 4, 4, 0, 5, [0, 0, 0, 0]⟩ [97]).2.bytes = [0, 0, 0, 0] ∧
    increment_counter [255, 255] 0 = [255, 255] ∧
    (enhanced_counting_bloom_add ⟨8, 2, [255, 255, 255, 255], 0, 0, 1⟩ [97]).1 = 1 ∧
    (enhanced_counting_bloom_add ⟨8, 2, [255, 255, 255, 255], 0, 0, 1⟩ [97]).2.counts
      = [255, 255, 255, 255] := by
  decide

/-- Claim C7, amended: counters saturate on increment (a counter already at
fifteen is left unchanged) and are guarded on decrement (a zero nibble is
left untouched and bitmap_decrement returns minus one); bitmap_increment
likewise returns minus one without writing when the nibble is already
fifteen.  The public operations, however, discard these flags:
counting_bloom_add and counting_bloom_remove always return 0, and
increment_counter has no return channel at all, so saturation and
underflow are never reported to the caller. -/
theorem counter_report_amended :
    (∀ (counts : List Nat) (pos : Nat),
        get_counter counts pos = 15 → increment_counter counts pos = counts) ∧
    (∀ (arr : List Nat) (index offset : Nat),
        (index % 2 ≠ 0 → arr.getD (index / 2 + offset) 0 &&& 0x0f = 0 →
          bitmap_decrement arr index offset = (-1, arr)) ∧
        (index % 2 = 0 → (arr.getD (index / 2 + offset) 0 &&& 0xf0) >>> 4 = 0 →
          bitmap_decrement arr index offset = (-1, arr))) ∧
    (∀ (arr : List Nat) (index offset : Nat),
        (index % 2 ≠ 0 → arr.getD (index / 2 + offset) 0 &&& 0x0f = 0x0f →
          bitmap_increment arr index offset = (-1, arr)) ∧
        (index % 2 = 0 → (arr.getD (index / 2 + offset) 0 &&& 0xf0) >>> 4 = 0x0f →
          bitmap_increment arr index offset = (-1, arr))) ∧
    (∀ (cb : CBloom) (key : List Nat), (counting_bloom_add cb key).1 = 0) ∧
    (∀ (cb : CBloom) (key : List Nat), (counting_bloom_remove cb key).1 = 0) := by
  refine ⟨?_, ?_, ?_, fun _ _ => rfl, fun _ _ => rfl⟩
  · intro counts pos h
    unfold increment_counter
    dsimp only
    rw [h, if_neg (by decide)]
  · intro arr index offset
    constructor
    · intro hodd hz
      unfold bitmap_decrement
      dsimp only
      rw [if_pos hodd, if_pos hz]
    · intro heven hz
      unfold bitmap_decrement
      dsimp only
      rw [if_neg (fun hc => hc heven), if_pos hz]
  · intro arr index offset
    constructor
    · intro hodd hf
      unfold bitmap_increment
      dsimp only
      rw [if_pos hodd, if_pos hf]
    · intro heven hf
      unfold bitmap_increment
      dsimp only
      rw [if_neg (fun hc => hc heven), if_pos hf]

/-- Witness for the amended claim C7 at concrete saturated and zero
counters. -/
theorem counter_report_amended_witness :
    increment_counter [255] 0 = [255] ∧
    bitmap_decrement [0] 1 0 = (-1, [0]) ∧
    bitmap_decrement [0] 0 0 = (-1, [0]) ∧
    bitmap_increment [255] 1 0 = (-1, [255]) ∧
    bitmap_increment [255] 0 0 = (-1, [255]) ∧
    (counting_bloom_add cbDefault [97]).1 = 0 :=
  ⟨counter_report_amended.1 [255] 0 (by decide),
   (counter_report_amended.2.1 [0] 1 0).1 (by decide) (by decide),
   (counter_report_amended.2.1 [0] 0 0).2 (by decide) (by decide),
   (counter_report_amended.2.2.1 [255] 1 0).1 (by decide) (by decide),
   (counter_report_amended.2.2.1 [255] 0 0).2 (by decide) (by decide),
   counter_report_amended.2.2.2.1 cbDefault [97]⟩

theorem bpeDenom_pos : (0 : ℝ) < bpeDenom := by
  unfold bpeDenom
  norm_num

/-- Claim C9, counterexample.  bloom_init casts entries * bpe to size_t,
which truncates (floor), while the specification demands the ceiling: at
entries = 1000 and error rate one half the product is strictly between
1442 and 1443, so the code stores 1442 bits where the specified formula
gives 1443. -/
theorem bloom_param_cex :
    bloom_bpe_rel (1 / 2) (-(Real.log (1 / 2) / bpeDenom)) ∧
    bloom_bits_rel 1000 (-(Real.log (1 / 2) / bpeDenom)) 1442 ∧
    spec_bits_rel 1000 (1 / 2) 1443 ∧ (1442 : ℤ) ≠ 1443 := by
  have h1 : (0.6931471803 : ℝ) < Real.log 2 := Real.log_two_gt_d9
  have h2 : Real.log 2 < 0.6931471808 := Real.log_two_lt_d9
  have hlog : Real.log ((1 : ℝ) / 2) = -Real.log 2 := by
    rw [one_div, Real.log_inv]
  have hD : bpeDenom = 0.480453013918201 := rfl
  have hL2 : (0 : ℝ) < Real.log 2 := lt_trans (by norm_num) h1
  refine ⟨rfl, ?_, ?_, by decide⟩
  · unfold bloom_bits_rel
    rw [eq_comm, Int.floor_eq_iff]
    rw [hlog, hD]
    push_cast
    have hexp : (1000 : ℝ) * -(-Real.log 2 / 0.480453013918201)
        = 1000 * Real.log 2 / 0.480453013918201 := by ring
    rw [hexp]
    constructor
    · rw [le_div_iff₀ (by norm_num)]
      nlinarith [h1]
    · rw [div_lt_iff₀ (by norm_num)]
      nlinarith [h2]
  · unfold spec_bits_rel
    rw [eq_comm, Int.ceil_eq_iff]
    rw [hlog]
    push_cast
    have hexp : (1000 : ℝ) * (- -Real.log 2 / Real.log 2 ^ 2)
        = 1000 * (Real.log 2 / Real.log 2 ^ 2) := by ring
    have hexp2 : Real.log 2 / Real.log 2 ^ 2 = 1 / Real.log 2 := by
      rw [sq]
      field_simp
    rw [hexp, hexp2]
    have hexp3 : (1000 : ℝ) * (1 / Real.log 2) = 1000 / Real.log 2 := by ring
    rw [hexp3]
    constructor
    · rw [lt_div_iff₀ hL2]
      nlinarith [h2]
    · rw [div_le_iff₀ hL2]
      nlinarith [h1]

/-- Claim C9, amended: for every valid error rate the computed bpe is the
positive quotient of the negated logarithm of the error rate by the
decimal constant 0.480453013918201 (the code's stand-in for the square of
the logarithm of two); the stored bit count is the truncation (floor, not
ceiling) of entries times bpe; and the hash count is the ceiling of the
decimal constant 0.693147180559945 times bpe. -/
theorem bloom_param_formulas (entries : Nat) (e bpe : ℝ) (bits hashes : ℤ)
    (he0 : 0 < e) (he1 : e < 1)
    (hbpe : bloom_bpe_rel e bpe) (hbits : bloom_bits_rel entries bpe bits)
    (hh : bloom_hashes_rel bpe hashes) :
    0 < bpe ∧ bpe * bpeDenom = -Real.log e ∧
    (bits : ℝ) ≤ (entries : ℝ) * bpe ∧ (entries : ℝ) * bpe < bits + 1 ∧
    (hashes : ℝ) - 1 < lnTwoCode * bpe ∧ lnTwoCode * bpe ≤ hashes := by
  have hlogneg : Real.log e < 0 := Real.log_neg he0 he1
  have hDpos := bpeDenom_pos
  have hbpe0 : 0 < bpe := by
    rw [hbpe]
    have hflip : -(Real.log e / bpeDenom) = -Real.log e / bpeDenom := by ring
    rw [hflip]
    exact div_pos (by linarith) hDpos
  refine ⟨hbpe0, ?_, ?_, ?_, ?_, ?_⟩
  · rw [hbpe, neg_mul, div_mul_cancel₀ _ hDpos.ne']
  · rw [hbits]
    exact Int.floor_le _
  · rw [hbits]
    exact Int.lt_floor_add_one _
  · rw [hh]
    have := Int.ceil_lt_add_one (α := ℝ) (lnTwoCode * bpe)
    linarith
  · rw [hh]
    exact Int.le_ceil _

/-- Witness for the amended claim C9 at entries = 1000 and error rate one
half, with the relations instantiated by their defining expressions. -/
theorem bloom_param_formulas_witness :
    0 < -(Real.log (1 / 2) / bpeDenom) ∧
    -(Real.log (1 / 2) / bpeDenom) * bpeDenom = -Real.log (1 / 2) ∧
    ((⌊(1000 : ℝ) * -(Real.log (1 / 2) / bpeDenom)⌋ : ℤ) : ℝ)
        ≤ (1000 : ℝ) * -(Real.log (1 / 2) / bpeDenom) ∧
    (1000 : ℝ) * -(Real.log (1 / 2) / bpeDenom)
        < (⌊(1000 : ℝ) * -(Real.log (1 / 2) / bpeDenom)⌋ : ℤ) + 1 ∧
    ((⌈lnTwoCode * -(Real.log (1 / 2) / bpeDenom)⌉ : ℤ) : ℝ) - 1
        < lnTwoCode * -(Real.log (1 / 2) / bpeDenom) ∧
    lnTwoCode * -(Real.log (1 / 2) / bpeDenom)
        ≤ (⌈lnTwoCode * -(Real.log (1 / 2) / bpeDenom)⌉ : ℤ) :=
  bloom_param_formulas 1000 (1 / 2) (-(Real.log (1 / 2) / bpeDenom))
    ⌊(1000 : ℝ) * -(Real.log (1 / 2) / bpeDenom)⌋
    ⌈lnTwoCode * -(Real.log (1 / 2) / bpeDenom)⌉
    (by norm_num) (by norm_num) rfl rfl rfl

theorem from_scale_last_proj (geom : ℚ → Nat × Nat) (sb : SBloom) :
    ((new_counting_bloom_from_scale geom sb).blooms.getD sb.blooms.length
        cbDefault).error_rate = sb.error_rate * (1 / 2) ^ (sb.blooms.length + 1) ∧
      ((new_counting_bloom_from_scale geom sb).blooms.getD sb.blooms.length
        cbDefault).id = 0 ∧
      ((new_counting_bloom_from_scale geom sb).blooms.getD sb.blooms.length
        cbDefault).count = 0 := by
  rw [from_scale_blooms, List.getD_append_right _ _ _ _ (Nat.le_refl _), Nat.sub_self]
  exact ⟨rfl, rfl, rfl⟩

theorem sba_length (geom : ℚ → Nat × Nat) (sb : SBloom) (key : List Nat) (id : Nat) :
    (scaling_bloom_add geom sb key id).2.1.blooms.length
      = (if id > sb.max_id ∧
            (sb.blooms.getD (routeIdx sb.blooms id) cbDefault).count ≥ sb.capacity - 1
        then sb.blooms.length + 1 else sb.blooms.length) := by
  rw [sba_blooms_char]
  split_ifs with h
  · rw [modifyBloomAt_length, modifyBloomAt_length, from_scale_length]
  · rw [modifyBloomAt_length]

theorem sba_grow_out (geom : ℚ → Nat × Nat) (sb : SBloom) (key : List Nat) (id : Nat)
    (hgrow : id > sb.max_id ∧
      (sb.blooms.getD (routeIdx sb.blooms id) cbDefault).count ≥ sb.capacity - 1) :
    ((scaling_bloom_add geom sb key id).2.1.blooms.getD sb.blooms.length
        cbDefault).error_rate = sb.error_rate * (1 / 2) ^ (sb.blooms.length + 1) ∧
      ((scaling_bloom_add geom sb key id).2.1.blooms.getD sb.blooms.length
        cbDefault).id = sb.max_id + 1 ∧
      ((scaling_bloom_add geom sb key id).2.1.blooms.getD sb.blooms.length
        cbDefault).count = 1 ∧
      ∀ j < sb.blooms.length,
        (scaling_bloom_add geom sb key id).2.1.blooms.getD j cbDefault
          = sb.blooms.getD j cbDefault := by
  have hchar := sba_blooms_char geom sb key id
  rw [if_pos hgrow] at hchar
  have hLs : (new_counting_bloom_from_scale geom
      { sb with mem_seqnum := 0, disk_seqnum := 0 }).blooms.length
      = sb.blooms.length + 1 := from_scale_length geom _
  have hidx : (new_counting_bloom_from_scale geom
      { sb with mem_seqnum := 0, disk_seqnum := 0 }).blooms.length - 1
      = sb.blooms.length := by
    rw [hLs]
    omega
  rw [hidx] at hchar
  have hb1 : sb.blooms.length < (modifyBloomAt (new_counting_bloom_from_scale geom
      { sb with mem_seqnum := 0, disk_seqnum := 0 }).blooms sb.blooms.length
      (fun cb => { cb with count := 0, id := sb.max_id + 1 })).length := by
    rw [modifyBloomAt_length, hLs]
    omega
  have hb0 : sb.blooms.length < (new_counting_bloom_from_scale geom
      { sb with mem_seqnum := 0, disk_seqnum := 0 }).blooms.length := by
    rw [hLs]
    omega
  have hgd : (scaling_bloom_add geom sb key id).2.1.blooms.getD sb.blooms.length cbDefault
      = (counting_bloom_add { ((new_counting_bloom_from_scale geom
          { sb with mem_seqnum := 0, disk_seqnum := 0 }).blooms.getD sb.blooms.length
          cbDefault) with count := 0, id := sb.max_id + 1 } key).2 := by
    rw [hchar, modifyBloomAt_getD_self _ hb1, modifyBloomAt_getD_self _ hb0]
  have hlp := from_scale_last_proj geom { sb with mem_seqnum := 0, disk_seqnum := 0 }
  have hbb : ({ sb with mem_seqnum := 0, disk_seqnum := 0 } : SBloom).blooms
      = sb.blooms := rfl
  have hee : ({ sb with mem_seqnum := 0, disk_seqnum := 0 } : SBloom).error_rate
      = sb.error_rate := rfl
  rw [hbb, hee] at hlp
  refine ⟨?_, ?_, ?_, ?_⟩
  · rw [hgd, (cba_proj _ key).2.1]
    exact hlp.1
  · rw [hgd, (cba_proj _ key).2.2.2.2.2.1]
  · rw [hgd, (cba_proj _ key).2.2.2.2.2.2.1]
    show (0 + 1) % U32 = 1
    decide
  · intro j hj
    rw [hchar, modifyBloomAt_getD_ne _ (by omega), modifyBloomAt_getD_ne _ (by omega)]
    exact from_scale_getD_front geom _ j hj

theorem routeIdx_len1 (bs : List CBloom) (id : Nat) (h1 : bs.length = 1) :
    routeIdx bs id = 0 := by
  unfold routeIdx
  rw [h1]
  have hr : (List.range 1).reverse = [0] := rfl
  rw [hr]
  by_cases hp : id ≥ (bs.getD 0 cbDefault).id
  · rw [@List.find?_cons_of_pos Nat (fun i => decide (id ≥ (bs.getD i cbDefault).id)) 0 []
      (decide_eq_true hp)]
  · rw [@List.find?_cons_of_neg Nat (fun i => decide (id ≥ (bs.getD i cbDefault).id)) 0 []
      (by simpa using hp), List.find?_nil]

theorem routeIdx_len2 (bs : List CBloom) (id : Nat) (h2 : bs.length = 2)
    (h : id ≥ (bs.getD 1 cbDefault).id) : routeIdx bs id = 1 := by
  unfold routeIdx
  rw [h2]
  have hr : (List.range 2).reverse = [1, 0] := rfl
  rw [hr]
  rw [@List.find?_cons_of_pos Nat (fun i => decide (id ≥ (bs.getD i cbDefault).id)) 1 [0]
    (decide_eq_true h)]

theorem nsb_facts (geom : ℚ → Nat × Nat) (capacity : Nat) (er : ℚ) (hg : GeomPos geom) :
    (new_scaling_bloom geom capacity er).blooms.length = 1 ∧
      ((new_scaling_bloom geom capacity er).blooms.getD 0 cbDefault).id = 0 ∧
      ((new_scaling_bloom geom capacity er).blooms.getD 0 cbDefault).count = 0 ∧
      (new_scaling_bloom geom capacity er).capacity = capacity ∧
      (new_scaling_bloom geom capacity er).max_id = 0 ∧
      SBloomWF (new_scaling_bloom geom capacity er) ∧
      (new_scaling_bloom geom capacity er).blooms ≠ [] := by
  refine ⟨rfl, rfl, rfl, rfl, rfl, ?_, ?_⟩
  · intro cb hcb
    exact from_scale_wf geom _ hg (fun c h => absurd h (List.not_mem_nil c)) cb hcb
  · intro h
    exact Nat.one_ne_zero (congrArg List.length h)

theorem applySOps_nil (geom : ℚ → Nat × Nat) (sb : SBloom) : applySOps geom sb [] = sb := rfl

theorem applySOps_cons (geom : ℚ → Nat × Nat) (sb : SBloom) (o : SOp) (ops : List SOp) :
    applySOps geom sb (o :: ops) = applySOps geom (applySOp geom sb o) ops := rfl

theorem applySOps_append (geom : ℚ → Nat × Nat) (sb : SBloom) (l1 l2 : List SOp) :
    applySOps geom sb (l1 ++ l2) = applySOps geom (applySOps geom sb l1) l2 :=
  List.foldl_append _ _ _ _

theorem no_remove_in_adds (pairs : List (List Nat × Nat)) :
    ∀ key rid, SOp.remove key rid ∉ pairs.map (fun p => SOp.add p.1 p.2) := by
  intro key rid hmem
  obtain ⟨p, _, heq⟩ := List.mem_map.mp hmem
  exact SOp.noConfusion heq

theorem scaling_add_present (geom : ℚ → Nat × Nat) (sb : SBloom) (x : List Nat) (id : Nat)
    (rest : List SOp) (hg : GeomPos geom) (hwf : SBloomWF sb) (hne : sb.blooms ≠ [])
    (hnr : ∀ key rid, SOp.remove key rid ∉ rest) :
    scaling_bloom_check (applySOps geom (scaling_bloom_add geom sb x id).2.1 rest) x = 1 := by
  obtain ⟨hwf1, _, ⟨j, hj, hsub⟩, hne1⟩ := sba_facts geom sb x id hg hwf hne
  obtain ⟨hwfF, hmonoF, _⟩ :=
    sops_inv geom hg rest hnr (scaling_bloom_add geom sb x id).2.1 hwf1 hne1
  apply scaling_check_of_sub _ _ j (Nat.lt_of_lt_of_le hj hmonoF.1)
  apply cbc_eq_one
  exact subAllSet_of_mono (hmonoF.2 j hj) hsub

theorem adds_all_present (geom : ℚ → Nat × Nat) (hg : GeomPos geom) :
    ∀ (pairs : List (List Nat × Nat)) (sb : SBloom), SBloomWF sb → sb.blooms ≠ [] →
      ∀ r ∈ pairs,
        scaling_bloom_check
          (applySOps geom sb (pairs.map (fun p => SOp.add p.1 p.2))) r.1 = 1 := by
  intro pairs
  induction pairs with
  | nil =>
    intro sb _ _ r hr
    exact absurd hr (List.not_mem_nil r)
  | cons a t ih =>
    intro sb hwf hne r hr
    rw [List.map_cons, applySOps_cons]
    rcases List.mem_cons.mp hr with rfl | hrt
    · exact scaling_add_present geom sb r.1 r.2 _ hg hwf hne (no_remove_in_adds t)
    · have hstep := sba_facts geom sb a.1 a.2 hg hwf hne
      exact ih (scaling_bloom_add geom sb a.1 a.2).2.1 hstep.1 hstep.2.2.2 r hrt

theorem adds_phase1 (geom : ℚ → Nat × Nat) :
    ∀ (pairs : List (List Nat × Nat)) (sb : SBloom),
      sb.blooms.length = 1 →
      (sb.blooms.getD 0 cbDefault).id = 0 →
      (sb.blooms.getD 0 cbDefault).count + pairs.length ≤ sb.capacity - 1 →
      (sb.blooms.getD 0 cbDefault).count + pairs.length < U32 →
      (applySOps geom sb (pairs.map (fun p => SOp.add p.1 p.2))).blooms.length = 1 ∧
        ((applySOps geom sb (pairs.map (fun p => SOp.add p.1 p.2))).blooms.getD 0
          cbDefault).id = 0 ∧
        ((applySOps geom sb (pairs.map (fun p => SOp.add p.1 p.2))).blooms.getD 0
          cbDefault).count = (sb.blooms.getD 0 cbDefault).count + pairs.length ∧
        (applySOps geom sb (pairs.map (fun p => SOp.add p.1 p.2))).capacity
          = sb.capacity ∧
        (∀ q, sb.max_id < q → (∀ p ∈ pairs, p.2 < q) →
          (applySOps geom sb (pairs.map (fun p => SOp.add p.1 p.2))).max_id < q) := by
  intro pairs
  induction pairs with
  | nil =>
    intro sb h1 hid hc hu
    exact ⟨h1, hid, rfl, rfl, fun q hq _ => hq⟩
  | cons a t ih =>
    intro sb h1 hid hc hu
    simp only [List.length_cons] at hc hu
    have hr0 : routeIdx sb.blooms a.2 = 0 := routeIdx_len1 sb.blooms a.2 h1
    have hng : ¬(a.2 > sb.max_id ∧
        (sb.blooms.getD (routeIdx sb.blooms a.2) cbDefault).count ≥ sb.capacity - 1) := by
      rintro ⟨-, hge⟩
      rw [hr0] at hge
      omega
    have hchar := sba_blooms_char geom sb a.1 a.2
    rw [if_neg hng, hr0] at hchar
    have hmin := sba_minor geom sb a.1 a.2
    have hlen1 : (scaling_bloom_add geom sb a.1 a.2).2.1.blooms.length = 1 := by
      rw [hchar, modifyBloomAt_length]
      exact h1
    have hgd : (scaling_bloom_add geom sb a.1 a.2).2.1.blooms.getD 0 cbDefault
        = (counting_bloom_add (sb.blooms.getD 0 cbDefault) a.1).2 := by
      rw [hchar, modifyBloomAt_getD_self _ (by omega)]
    have hid1 : ((scaling_bloom_add geom sb a.1 a.2).2.1.blooms.getD 0 cbDefault).id = 0 := by
      rw [hgd, (cba_proj _ _).2.2.2.2.2.1]
      exact hid
    have hcnt1 : ((scaling_bloom_add geom sb a.1 a.2).2.1.blooms.getD 0 cbDefault).count
        = (sb.blooms.getD 0 cbDefault).count + 1 := by
      rw [hgd, (cba_proj _ _).2.2.2.2.2.2.1]
      exact Nat.mod_eq_of_lt (by omega)
    rw [List.map_cons, applySOps_cons]
    have ha : applySOp geom sb (SOp.add a.1 a.2)
        = (scaling_bloom_add geom sb a.1 a.2).2.1 := rfl
    rw [ha]
    have hrec := ih (scaling_bloom_add geom sb a.1 a.2).2.1 hlen1 hid1
      (by rw [hcnt1, hmin.1]; omega) (by rw [hcnt1]; omega)
    refine ⟨hrec.1, hrec.2.1, ?_, ?_, ?_⟩
    · rw [hrec.2.2.1, hcnt1]
      simp only [List.length_cons]
      omega
    · rw [hrec.2.2.2.1, hmin.1]
    · intro q hq hall
      apply hrec.2.2.2.2 q ?_ (fun p hp => hall p (List.mem_cons_of_mem a hp))
      rw [hmin.2.2.1]
      have haq := hall a (List.mem_cons_self a t)
      split_ifs <;> omega

/-- Claim C3: growth trigger of the scaling filter.  An insert appends a
new sub-filter exactly when the record id exceeds every id seen so far and
the routing target already holds capacity minus one records; the appended
sub-filter's error rate is the base error rate tightened by one half
raised to the successor of the previous chain length, and its id lower
bound is the successor of the maximal id seen.  Consequently, inserting
1001 items with strictly increasing ids into a fresh scaling filter of
capacity 1000 leaves exactly two sub-filters, with every inserted item
reported present. -/
theorem scaling_growth_trigger :
    (∀ (geom : ℚ → Nat × Nat) (sb : SBloom) (key : List Nat) (id : Nat),
      ((scaling_bloom_add geom sb key id).2.1.blooms.length = sb.blooms.length + 1 ↔
        id > sb.max_id ∧
          (sb.blooms.getD (routeIdx sb.blooms id) cbDefault).count ≥ sb.capacity - 1) ∧
      (id > sb.max_id ∧
          (sb.blooms.getD (routeIdx sb.blooms id) cbDefault).count ≥ sb.capacity - 1 →
        ((scaling_bloom_add geom sb key id).2.1.blooms.getD sb.blooms.length
            cbDefault).error_rate = sb.error_rate * (1 / 2) ^ (sb.blooms.length + 1) ∧
          ((scaling_bloom_add geom sb key id).2.1.blooms.getD sb.blooms.length
            cbDefault).id = sb.max_id + 1)) ∧
    (∀ (geom : ℚ → Nat × Nat) (e : ℚ) (pairs : List (List Nat × Nat)),
      GeomPos geom → pairs.length = 1001 →
      List.Chain' (fun p q : List Nat × Nat => p.2 < q.2) pairs →
      (applySOps geom (new_scaling_bloom geom 1000 e)
          (pairs.map (fun p => SOp.add p.1 p.2))).blooms.length = 2 ∧
        ∀ r ∈ pairs,
          scaling_bloom_check
            (applySOps geom (new_scaling_bloom geom 1000 e)
              (pairs.map (fun p => SOp.add p.1 p.2))) r.1 = 1) := by
  constructor
  · intro geom sb key id
    constructor
    · rw [sba_length]
      constructor
      · intro h
        by_cases hgrow : id > sb.max_id ∧
            (sb.blooms.getD (routeIdx sb.blooms id) cbDefault).count ≥ sb.capacity - 1
        · exact hgrow
        · rw [if_neg hgrow] at h
          omega
      · intro hgrow
        rw [if_pos hgrow]
    · intro hgrow
      exact ⟨(sba_grow_out geom sb key id hgrow).1, (sba_grow_out geom sb key id hgrow).2.1⟩
  · intro geom e pairs hg hlen hchain
    have nsb := nsb_facts geom 1000 e hg
    refine ⟨?_, fun r hr =>
      adds_all_present geom hg pairs _ nsb.2.2.2.2.2.1 nsb.2.2.2.2.2.2 r hr⟩
    rcases List.eq_nil_or_concat' pairs with rfl | ⟨t1, qq, rfl⟩
    · exact absurd hlen (by decide)
    rcases List.eq_nil_or_concat' t1 with rfl | ⟨t, pp, rfl⟩
    · rw [List.nil_append] at hlen
      exact absurd hlen (by simp)
    have hlt : t.length = 999 := by
      simp only [List.length_append, List.length_cons, List.length_nil] at hlen
      omega
    haveI : IsTrans (List Nat × Nat) (fun p q : List Nat × Nat => p.2 < q.2) :=
      ⟨fun _ _ _ h1 h2 => Nat.lt_trans h1 h2⟩
    have hpw := List.chain'_iff_pairwise.mp hchain
    rw [List.pairwise_append] at hpw
    obtain ⟨hpw1, -, hcross2⟩ := hpw
    rw [List.pairwise_append] at hpw1
    obtain ⟨-, -, hcross1⟩ := hpw1
    have hip : ∀ r ∈ t, r.2 < pp.2 := fun r hr => hcross1 r hr pp (List.mem_singleton.mpr rfl)
    have hpq : pp.2 < qq.2 :=
      hcross2 pp (List.mem_append_right t (List.mem_singleton.mpr rfl)) qq
        (List.mem_singleton.mpr rfl)
    have hiq : ∀ r ∈ t, r.2 < qq.2 := fun r hr => Nat.lt_trans (hip r hr) hpq
    have htne : t ≠ [] := by
      intro h
      rw [h] at hlt
      exact absurd hlt (by decide)
    have hp0 : 0 < pp.2 := by
      obtain ⟨r, hr⟩ := List.exists_mem_of_ne_nil t htne
      have := hip r hr
      omega
    have hq0 : 0 < qq.2 := Nat.lt_trans hp0 hpq
    have hp1 := adds_phase1 geom t (new_scaling_bloom geom 1000 e) nsb.1 nsb.2.1
      (by rw [nsb.2.2.1, nsb.2.2.2.1, hlt])
      (by rw [nsb.2.2.1, hlt]; decide)
    simp only [List.map_append, List.map_cons, List.map_nil, applySOps_append,
      applySOps_cons, applySOps_nil, applySOp]
    set SB1 := applySOps geom (new_scaling_bloom geom 1000 e)
      (t.map (fun p => SOp.add p.1 p.2)) with hSB1
    have hmax1 : SB1.max_id < pp.2 :=
      hp1.2.2.2.2 pp.2 (by rw [nsb.2.2.2.2.1]; exact hp0) hip
    have hmax1q : SB1.max_id < qq.2 :=
      hp1.2.2.2.2 qq.2 (by rw [nsb.2.2.2.2.1]; exact hq0) hiq
    have hgrow : pp.2 > SB1.max_id ∧
        (SB1.blooms.getD (routeIdx SB1.blooms pp.2) cbDefault).count
          ≥ SB1.capacity - 1 := by
      refine ⟨hmax1, ?_⟩
      rw [routeIdx_len1 _ _ hp1.1, hp1.2.2.1, hp1.2.2.2.1, nsb.2.2.1, nsb.2.2.2.1, hlt]
    have hlen2 : (scaling_bloom_add geom SB1 pp.1 pp.2).2.1.blooms.length = 2 := by
      rw [sba_length, if_pos hgrow, hp1.1]
    have hout := sba_grow_out geom SB1 pp.1 pp.2 hgrow
    rw [hp1.1] at hout
    have hcap2 : (scaling_bloom_add geom SB1 pp.1 pp.2).2.1.capacity = 1000 := by
      rw [(sba_minor geom SB1 pp.1 pp.2).1, hp1.2.2.2.1, nsb.2.2.2.1]
    have hroute2 : routeIdx (scaling_bloom_add geom SB1 pp.1 pp.2).2.1.blooms qq.2 = 1 := by
      apply routeIdx_len2 _ _ hlen2
      rw [hout.2.1]
      omega
    have hng2 : ¬(qq.2 > (scaling_bloom_add geom SB1 pp.1 pp.2).2.1.max_id ∧
        ((scaling_bloom_add geom SB1 pp.1 pp.2).2.1.blooms.getD
          (routeIdx (scaling_bloom_add geom SB1 pp.1 pp.2).2.1.blooms qq.2)
          cbDefault).count
          ≥ (scaling_bloom_add geom SB1 pp.1 pp.2).2.1.capacity - 1) := by
      rintro ⟨-, hge⟩
      rw [hroute2, hout.2.2.1, hcap2] at hge
      omega
    rw [sba_length, if_neg hng2]
    exact hlen2

set_option maxRecDepth 8192 in
/-- Witness for claim C3: a full single sub-filter grows under an insert
with a fresh id, and the 1001-insert scenario at concrete keys and ids. -/
theorem scaling_growth_trigger_witness :
    ((scaling_bloom_add (fun _ => (1, 4))
        ⟨2, 1 / 100, 0, 1, 0, [⟨2, 1 / 100, 1, 4, 4, 0, 1, [0, 0]⟩]⟩ [97] 1).2.1.blooms.getD
        1 cbDefault).id = 1 ∧
    (applySOps (fun _ => (1, 4)) (new_scaling_bloom (fun _ => (1, 4)) 1000 (1 / 100))
        (((List.range 1001).map (fun i => ([97], i + 1))).map
          (fun p => SOp.add p.1 p.2))).blooms.length = 2 :=
  ⟨((scaling_growth_trigger.1 (fun _ => (1, 4))
      ⟨2, 1 / 100, 0, 1, 0, [⟨2, 1 / 100, 1, 4, 4, 0, 1, [0, 0]⟩]⟩ [97] 1).2
      (by decide)).2,
    (scaling_growth_trigger.2 (fun _ => (1, 4)) (1 / 100)
      ((List.range 1001).map (fun i => ([97], i + 1)))
      (fun _ => Nat.succ_pos 3) (by simp)
      (List.chain'_map_of_chain' (fun i => ([97], i + 1))
        (fun a b h => by show a + 1 < b + 1; omega)
        ((List.chain'_range_succ _ 1000).mpr (fun m _ => Nat.lt_succ_self m)))).1⟩
